import Mathlib

/-
Verification of the Charge room-assignment engine (src/utils/assignment.ts).

Modelling conventions for the shallow embedding:
* JS numbers are modelled exactly over ℚ (all tag weights are decimal
  literals; no claim settled here depends on IEEE-754 rounding).
* A luxon DateTime is modelled as a record `DT` carrying the observations
  the engine makes of it: `toMillis()` (an Int), `hour`/`minute`, and the
  minute-truncated format string used by the hash.  `formatClock` from
  src/utils/time.ts delegates to luxon (external library); it is modelled
  as an explicit function parameter `fmtClock : DT → String → String`
  threaded to the label builder, exactly where the timezone is consumed.
* The tag columns hold 'Y' | '' in the source; presence is modelled as Bool
  (`true` ↔ 'Y').
* `String.localeCompare` is modelled as code-point lexicographic comparison
  (the room ids are plain ASCII digit/dash strings).  `charCodeAt` is
  modelled as the character's code point (all inputs are BMP).
* `Array.prototype.sort` is stable (ES2019); for the engine's consistent
  comparators its output is the unique stable order, modelled by the stable
  insertion sort `jsSort`.
* JS `Map` is modelled as an association list in insertion order; `set` on
  an existing key replaces in place, otherwise appends.
* The two `throw new Error(...)` sites are modelled with `Except String`.
-/

/-- Model of a parsed luxon DateTime: the fields the engine observes. -/
structure DT where
  millis : Int
  hour : Nat
  minute : Nat
  minuteStamp : String
deriving DecidableEq, Repr

/-- AssignmentInputRow from src/types.ts: room id, parsed time, eight tags. -/
structure AssignmentInputRow where
  room : String
  timeParsed : DT
  discharge : Bool
  under_24 : Bool
  over_24 : Bool
  baby_in_scn : Bool
  gyn : Bool
  bfi : Bool
  cs : Bool
  vag : Bool
deriving DecidableEq, Repr

structure NurseCapacity where
  nurseId : Nat
  capacity : Nat
deriving DecidableEq, Repr

structure NurseState where
  nurseId : Nat
  remaining : Int
  nAssigned : Nat
  loadSum : ℚ
  assignedGroups : List String
  hasBfi : Bool
  hasCs : Bool
deriving DecidableEq, Repr

/-- DerivedRoom from assignment.ts: the input row plus derived values. -/
structure DerivedRoom extends AssignmentInputRow where
  groupKey : Option String
  workload : ℚ
  randKey : Nat
  wEffective : ℚ
deriving DecidableEq, Repr

/-- roomGroupKey: multi-bed bay prefix, else the room id itself; null for
an empty (falsy) room string. -/
def roomGroupKey (room : String) : Option String :=
  if room = "" then none
  else
    match ["8", "10", "14", "16", "18", "20", "32"].find? (fun p => room.startsWith (p ++ "-")) with
    | some p => some p
    | none => some room

/-- computeCapacities: base = floor(R/N), first (R mod N) nurses get base+1. -/
def computeCapacities (nRooms nNurses : Nat) : List NurseCapacity :=
  let base := nRooms / nNurses
  let remainder := nRooms % nNurses
  (List.range nNurses).map (fun idx =>
    { nurseId := idx + 1, capacity := if idx < remainder then base + 1 else base })

/-- roomWorkload: additive tag weights with a 0.2 floor. -/
def roomWorkload (row : AssignmentInputRow) : ℚ :=
  let w0 : ℚ := 1
  let w1 := if row.discharge then w0 - 0.25 else w0
  let w2 := if row.baby_in_scn then w1 - 0.25 else w1
  let w3 := if row.gyn then w2 - 0.15 else w2
  let w4 := if row.bfi then w3 + 0.4 else w3
  let w5 := if row.cs then w4 + 0.55 else w4
  let w6 := if row.vag then w5 + 0.2 else w5
  max w6 0.2

inductive SortDirection where
  | oldest
  | newest
deriving DecidableEq, Repr

/-- getAgePriority: under_24 → 0, over_24 → 1, neither → 2. -/
def getAgePriority (row : AssignmentInputRow) : Int :=
  if row.under_24 then 0
  else if row.over_24 then 1
  else 2

/-- localeCompare modelled as code-point lexicographic comparison. -/
def localeCompare (a b : String) : Int :=
  if a < b then -1 else if b < a then 1 else 0

/-- compareByAgeThenTime: age priority, then timestamp (by direction), then
room id. -/
def compareByAgeThenTime (a b : DerivedRoom) (direction : SortDirection) : Int :=
  let ageDiff := getAgePriority a.toAssignmentInputRow - getAgePriority b.toAssignmentInputRow
  if ageDiff ≠ 0 then ageDiff
  else
    let timeDiff := a.timeParsed.millis - b.timeParsed.millis
    if timeDiff ≠ 0 then
      match direction with
      | .oldest => timeDiff
      | .newest => -timeDiff
    else localeCompare a.room b.room

/-- Stable insertion: place `x` before the first element not strictly below
it.  Together with `jsSort` this models the (stable) Array.prototype.sort. -/
def insertSorted {α : Type} (lt : α → α → Bool) (x : α) : List α → List α
  | [] => [x]
  | y :: ys => if lt y x then y :: insertSorted lt x ys else x :: y :: ys

/-- Stable sort modelling Array.prototype.sort with a consistent comparator
(`lt a b` ↔ comparator(a,b) < 0). -/
def jsSort {α : Type} (lt : α → α → Bool) : List α → List α
  | [] => []
  | x :: xs => insertSorted lt x (jsSort lt xs)

def sortByAgeThenTime (data : List DerivedRoom) (direction : SortDirection) : List DerivedRoom :=
  jsSort (fun a b => decide (compareByAgeThenTime a b direction < 0)) data

/-- stablePseudoRandomKey: accumulate (c * ((i+1) mod 97 + 1)) mod 104729
over "<room>|<minute-truncated timestamp>". -/
def stablePseudoRandomKey (room : String) (timeParsed : DT) : Nat :=
  let stamp := room ++ "|" ++ timeParsed.minuteStamp
  stamp.data.enum.foldl (fun acc p => acc + (p.2.toNat * ((p.1 + 1) % 97 + 1)) % 104729) 0

/-- makeEffectiveLoad: (1 + minutesSinceMidnight/1440) * workload. -/
def makeEffectiveLoad (timeParsed : DT) (workload : ℚ) : ℚ :=
  let minutes : ℚ := ((timeParsed.hour * 60 + timeParsed.minute : Nat) : ℚ)
  (1 + minutes / (24 * 60)) * workload

/-- The enrichment step of assignRooms (one row of the derived map). -/
def deriveRoom (row : AssignmentInputRow) : DerivedRoom :=
  let workload := roomWorkload row
  { toAssignmentInputRow := row
    workload := workload
    groupKey := roomGroupKey row.room
    randKey := stablePseudoRandomKey row.room row.timeParsed
    wEffective := makeEffectiveLoad row.timeParsed workload }

def buildInitialState (capacities : List NurseCapacity) : List NurseState :=
  capacities.map (fun cap =>
    { nurseId := cap.nurseId, remaining := (cap.capacity : Int), nAssigned := 0,
      loadSum := 0, assignedGroups := [], hasBfi := false, hasCs := false })

/-- JS Map<string, number>.has -/
def mapHas (m : List (String × Nat)) (k : String) : Bool :=
  m.any (fun p => p.1 = k)

/-- JS Map<string, number>.set: replace in place if present, else append. -/
def mapSet (m : List (String × Nat)) (k : String) (v : Nat) : List (String × Nat) :=
  if mapHas m k then m.map (fun p => if p.1 = k then (k, v) else p) else m ++ [(k, v)]

/-- JS Map<string, number>.get -/
def mapGet? (m : List (String × Nat)) (k : String) : Option Nat :=
  (m.find? (fun p => p.1 = k)).map (·.2)

/-- capacityMap lookup (Map<number, number>.get). -/
def capMapGet? (m : List (Nat × Nat)) (k : Nat) : Option Nat :=
  (m.find? (fun p => p.1 = k)).map (·.2)

def PEN_BFI_REPEAT : ℚ := 50
def PEN_CS_REPEAT : ℚ := 75

structure ScoredNurse where
  nurseId : Nat
  score : ℚ
deriving DecidableEq, Repr

/-- The per-candidate cost of pickNurse (the aggregates of the enclosing
scope are passed explicitly). -/
def scoreNurse (room : DerivedRoom) (capacityMap : List (Nat × Nat))
    (totalCapacity : ℚ) (assignedSoFar : Nat) (meanLoadTarget : ℚ)
    (stateLength : Nat) (nurse : NurseState) : ScoredNurse :=
  let projN : ℚ := (nurse.nAssigned : ℚ) + 1
  let projLoad := nurse.loadSum + room.wEffective
  let nurseCapacity : Nat := (capMapGet? capacityMap nurse.nurseId).getD 0
  let capacityShare : ℚ :=
    if 0 < nurseCapacity then (nurseCapacity : ℚ) / totalCapacity else 1 / (stateLength : ℚ)
  let projTotalAssigned : ℚ := (assignedSoFar : ℚ) + 1
  let projectedTarget := capacityShare * projTotalAssigned
  let baseScore := (projN - projectedTarget) ^ 2 + (projLoad - meanLoadTarget) ^ 2
  let hasGroup := match room.groupKey with
    | some g => nurse.assignedGroups.contains g
    | none => false
  let groupScore := if hasGroup then baseScore - 1e-3 else baseScore
  let repeatPenalty : ℚ :=
    (if room.bfi ∧ nurse.hasBfi then PEN_BFI_REPEAT else 0) +
    (if room.cs ∧ nurse.hasCs then PEN_CS_REPEAT else 0)
  { nurseId := nurse.nurseId, score := groupScore + repeatPenalty }

/-- Comparator of the scored list: score ascending, nurse id tie-break. -/
def scoredLt (a b : ScoredNurse) : Bool :=
  decide (a.score < b.score ∨ (a.score = b.score ∧ a.nurseId < b.nurseId))

/-- pickNurse (scored selection, phase 4). -/
def pickNurse (room : DerivedRoom) (state : List NurseState)
    (capacities : List NurseCapacity) (capacityMap : List (Nat × Nat)) : Except String Nat :=
  match state.filter (fun n => decide (0 < n.remaining)) with
  | [] => .error "No feasible nurse candidates: capacities exhausted"
  | c :: cs =>
    let totalCapacity : ℚ := ((capacities.map (fun cap => (cap.capacity : ℚ))).sum)
    let assignedSoFar : Nat := (state.map (·.nAssigned)).sum
    let totalLoad : ℚ := (state.map (·.loadSum)).sum
    let meanLoadTarget : ℚ := (totalLoad + room.wEffective) / (state.length : ℚ)
    let scoreOf := scoreNurse room capacityMap totalCapacity assignedSoFar meanLoadTarget state.length
    let scored := jsSort scoredLt ((c :: cs).map scoreOf)
    .ok (scored.headD (scoreOf c)).nurseId

/-- The mutation applied to the chosen nurse's state for one assignment. -/
def applyAssign (room : DerivedRoom) (n : NurseState) : NurseState :=
  { n with
    remaining := max 0 (n.remaining - 1)
    nAssigned := n.nAssigned + 1
    loadSum := n.loadSum + room.wEffective
    assignedGroups :=
      match room.groupKey with
      | some g => if n.assignedGroups.contains g then n.assignedGroups else n.assignedGroups ++ [g]
      | none => n.assignedGroups
    hasBfi := n.hasBfi || room.bfi
    hasCs := n.hasCs || room.cs }

/-- updateNurseState: mutate the first nurse with the given id (no-op if
absent, as in the source). -/
def updateNurseState (nurseId : Nat) (room : DerivedRoom) : List NurseState → List NurseState
  | [] => []
  | n :: rest =>
    if n.nurseId = nurseId then applyAssign room n :: rest
    else n :: updateNurseState nurseId room rest

/-- The state threaded through assignRoomsToState: nurse states, the
assignment map, and the round-robin pointer. -/
structure EngineState where
  nurses : List NurseState
  assignment : List (String × Nat)
  rrIndex : Nat
deriving DecidableEq, Repr

def defaultNurse : NurseState :=
  { nurseId := 0, remaining := 0, nAssigned := 0, loadSum := 0,
    assignedGroups := [], hasBfi := false, hasCs := false }

/-- getRoundRobinOrder: the nurse array rotated to start at the pointer. -/
def getRoundRobinOrder (es : EngineState) : List NurseState :=
  (List.range es.nurses.length).map
    (fun offset => es.nurses.getD ((es.rrIndex + offset) % es.nurses.length) defaultNurse)

/-- One iteration of the round-robin loop body. -/
def rrStep (room : DerivedRoom) (es : EngineState) : Except String EngineState :=
  match (getRoundRobinOrder es).filter (fun n => decide (0 < n.remaining)) with
  | [] => .error "No available nurse capacity for round-robin assignment."
  | c :: cs =>
    let avoidDuplicates := (c :: cs).filter
      (fun n => !(room.bfi && n.hasBfi) && !(room.cs && n.hasCs))
    let chosen := avoidDuplicates.headD c
    let chosenIndex := es.nurses.findIdx (fun n => n.nurseId = chosen.nurseId)
    .ok { nurses := updateNurseState chosen.nurseId room es.nurses
          assignment := mapSet es.assignment room.room chosen.nurseId
          rrIndex := (chosenIndex + 1) % es.nurses.length }

/-- forEach over a phase's rooms, propagating the thrown error. -/
def runPhase (step : DerivedRoom → EngineState → Except String EngineState) :
    List DerivedRoom → EngineState → Except String EngineState
  | [], es => .ok es
  | r :: rs, es =>
    match step r es with
    | .error e => .error e
    | .ok es' => runPhase step rs es'

/-- assignRoundRobin: order the phase, drop already-assigned rooms, loop. -/
def assignRoundRobin (data : List DerivedRoom) (direction : SortDirection)
    (es : EngineState) : Except String EngineState :=
  runPhase rrStep
    ((sortByAgeThenTime data direction).filter (fun room => !(mapHas es.assignment room.room))) es

/-- assignWithScoring: one phase-4 assignment. -/
def scoreStep (capacities : List NurseCapacity) (capacityMap : List (Nat × Nat))
    (room : DerivedRoom) (es : EngineState) : Except String EngineState :=
  if mapHas es.assignment room.room then .ok es
  else
    match pickNurse room es.nurses capacities capacityMap with
    | .error e => .error e
    | .ok chosen =>
      .ok { nurses := updateNurseState chosen room es.nurses
            assignment := mapSet es.assignment room.room chosen
            rrIndex := es.rrIndex }

/-- assignSequence: ordered scored assignment of the remaining rooms. -/
def assignSequence (capacities : List NurseCapacity) (capacityMap : List (Nat × Nat))
    (data : List DerivedRoom) (direction : SortDirection)
    (es : EngineState) : Except String EngineState :=
  runPhase (scoreStep capacities capacityMap)
    ((sortByAgeThenTime data direction).filter (fun room => !(mapHas es.assignment room.room))) es

/-- assignRoomsToState: the four phases in order, returning the room→nurse
assignment map. -/
def assignRoomsToState (rooms : List DerivedRoom) (state : List NurseState)
    (capacities : List NurseCapacity) : Except String (List (String × Nat)) :=
  let capacityMap := capacities.map (fun cap => (cap.nurseId, cap.capacity))
  let es0 : EngineState := { nurses := state, assignment := [], rrIndex := 0 }
  match assignRoundRobin (rooms.filter (fun room => room.discharge)) .oldest es0 with
  | .error e => .error e
  | .ok es1 =>
    match assignRoundRobin (rooms.filter (fun room => room.under_24)) .oldest es1 with
    | .error e => .error e
    | .ok es2 =>
      match assignRoundRobin (rooms.filter (fun room => room.over_24)) .oldest es2 with
      | .error e => .error e
      | .ok es3 =>
        match assignSequence capacities capacityMap
            (rooms.filter (fun room => !(mapHas es3.assignment room.room))) .oldest es3 with
        | .error e => .error e
        | .ok es4 => .ok es4.assignment

/-- RoomAssignmentRow from src/types.ts. -/
structure RoomAssignmentRow where
  room : String
  time : DT
  rank_oldest : Nat
  rank_youngest : Int
  nurse_id : Nat
  discharge : Bool
  under_24 : Bool
  over_24 : Bool
  baby_in_scn : Bool
  gyn : Bool
  bfi : Bool
  cs : Bool
  vag : Bool
deriving DecidableEq, Repr

/-- NurseSummaryRow from src/types.ts (per-tag counts in labelColumns
order). -/
structure NurseSummaryRow where
  nurse_id : Nat
  assigned_rooms : String
  n_rooms : Nat
  oldest_rank_received : Option Nat
  youngest_rank_received : Option Int
  n_discharge : Nat
  n_under_24 : Nat
  n_over_24 : Nat
  n_baby_in_scn : Nat
  n_gyn : Nat
  n_bfi : Nat
  n_cs : Nat
  n_vag : Nat
deriving DecidableEq, Repr

structure AssignmentResult where
  perNurse : List NurseSummaryRow
  perRoom : List RoomAssignmentRow
deriving DecidableEq, Repr

/-- buildRoomLabel: room id, formatted clock, active tag abbreviations. -/
def buildRoomLabel (row : RoomAssignmentRow) (tz : String)
    (fmtClock : DT → String → String) : String :=
  let parts : List String :=
    (if row.over_24 then ["over24"] else []) ++
    (if row.under_24 then ["under24"] else []) ++
    (if row.cs then ["cs"] else []) ++
    (if row.vag then ["vag"] else []) ++
    (if row.bfi then ["bfi"] else []) ++
    (if row.discharge then ["dc"] else []) ++
    (if row.gyn then ["gyn"] else [])
  let suffix := if parts.length ≠ 0 then " " ++ String.intercalate " " parts else ""
  row.room ++ " (" ++ fmtClock row.time tz ++ ")" ++ suffix

/-- The comparator of denseRankOldest's sort: millis, then room id. -/
def rankLt (a b : DerivedRoom) : Bool :=
  decide (a.timeParsed.millis < b.timeParsed.millis ∨
    (a.timeParsed.millis = b.timeParsed.millis ∧ localeCompare a.room b.room < 0))

/-- The accumulation loop of denseRankOldest. -/
def rankWalk : Option Int → Nat → List (String × Nat) → List DerivedRoom → List (String × Nat)
  | _, _, acc, [] => acc
  | last, currentRank, acc, room :: rest =>
    let millis := room.timeParsed.millis
    match last with
    | none => rankWalk (some millis) (currentRank + 1) (mapSet acc room.room (currentRank + 1)) rest
    | some lm =>
      if millis ≠ lm then
        rankWalk (some millis) (currentRank + 1) (mapSet acc room.room (currentRank + 1)) rest
      else rankWalk last currentRank (mapSet acc room.room currentRank) rest

/-- denseRankOldest: dense rank over rooms sorted by (timestamp, room id). -/
def denseRankOldest (rooms : List DerivedRoom) : List (String × Nat) :=
  rankWalk none 0 [] (jsSort rankLt rooms)

/-- One row of the per-room view. -/
def mkRoomRow (assignmentMap rankOldest : List (String × Nat)) (totalRooms : Nat)
    (room : DerivedRoom) : RoomAssignmentRow :=
  let oldestRank := (mapGet? rankOldest room.room).getD 1
  { room := room.room
    time := room.timeParsed
    rank_oldest := oldestRank
    rank_youngest := (totalRooms : Int) - (oldestRank : Int) + 1
    nurse_id := (mapGet? assignmentMap room.room).getD 0
    discharge := room.discharge
    under_24 := room.under_24
    over_24 := room.over_24
    baby_in_scn := room.baby_in_scn
    gyn := room.gyn
    bfi := room.bfi
    cs := room.cs
    vag := room.vag }

/-- The comparator of the per-room view: nurse id, then oldest rank. -/
def perRoomLt (a b : RoomAssignmentRow) : Bool :=
  decide (a.nurse_id < b.nurse_id ∨ (a.nurse_id = b.nurse_id ∧ a.rank_oldest < b.rank_oldest))

/-- One row of the per-nurse view. -/
def mkNurseRow (perRoom : List RoomAssignmentRow) (tz : String)
    (fmtClock : DT → String → String) (idx : Nat) : NurseSummaryRow :=
  let nurseId := idx + 1
  let roomsForNurse := perRoom.filter (fun room => room.nurse_id = nurseId)
  let nRooms := roomsForNurse.length
  { nurse_id := nurseId
    assigned_rooms :=
      String.intercalate ", " (roomsForNurse.map (fun room => buildRoomLabel room tz fmtClock))
    n_rooms := nRooms
    oldest_rank_received := if nRooms ≠ 0 then (roomsForNurse.map (·.rank_oldest)).min? else none
    youngest_rank_received := if nRooms ≠ 0 then (roomsForNurse.map (·.rank_youngest)).max? else none
    n_discharge := (roomsForNurse.filter (fun room => room.discharge)).length
    n_under_24 := (roomsForNurse.filter (fun room => room.under_24)).length
    n_over_24 := (roomsForNurse.filter (fun room => room.over_24)).length
    n_baby_in_scn := (roomsForNurse.filter (fun room => room.baby_in_scn)).length
    n_gyn := (roomsForNurse.filter (fun room => room.gyn)).length
    n_bfi := (roomsForNurse.filter (fun room => room.bfi)).length
    n_cs := (roomsForNurse.filter (fun room => room.cs)).length
    n_vag := (roomsForNurse.filter (fun room => room.vag)).length }

/-- assignRooms: the full engine (empty input short-circuits to empty
tables). -/
def assignRooms (rows : List AssignmentInputRow) (nNurses : Nat) (tz : String)
    (fmtClock : DT → String → String) : Except String AssignmentResult :=
  if rows.length = 0 then .ok { perNurse := [], perRoom := [] }
  else
    let capacities := computeCapacities rows.length nNurses
    let derived := rows.map deriveRoom
    match assignRoomsToState derived (buildInitialState capacities) capacities with
    | .error e => .error e
    | .ok assignmentMap =>
      let rankOldest := denseRankOldest derived
      let totalRooms := derived.length
      let perRoom := jsSort perRoomLt
        ((derived.filter (fun room => mapHas assignmentMap room.room)).map
          (mkRoomRow assignmentMap rankOldest totalRooms))
      let perNurse := (List.range nNurses).map (mkNurseRow perRoom tz fmtClock)
      .ok { perNurse := perNurse, perRoom := perRoom }

/-- Modelled from the spec: the section-4.2 hashKey formula — for each
character at position i (0-based) with code c, accumulate
(c * ((i+1) mod 97 + 1)) mod 104729 over "<room>|<timestamp truncated to
minute>", summing without reduction. -/
def hashKeySpec (room : String) (timeParsed : DT) : Nat :=
  let s := room ++ "|" ++ timeParsed.minuteStamp
  (s.data.enum.map (fun p => (p.2.toNat * ((p.1 + 1) % 97 + 1)) % 104729)).sum

/-- Set the hash key of a derived room to 0 (erasing the hash). -/
def eraseRand (r : DerivedRoom) : DerivedRoom := { r with randKey := 0 }

/-- Modelled from the spec: the variant enrichment of the open question in
section 9 — identical to deriveRoom but with the hash-key computation
removed. -/
def deriveRoomNoHash (row : AssignmentInputRow) : DerivedRoom :=
  let workload := roomWorkload row
  { toAssignmentInputRow := row
    workload := workload
    groupKey := roomGroupKey row.room
    randKey := 0
    wEffective := makeEffectiveLoad row.timeParsed workload }

/-- The engine's room→nurse map under its own capacity planning. -/
def assignRoomsMap (rows : List AssignmentInputRow) (nNurses : Nat) :
    Except String (List (String × Nat)) :=
  assignRoomsToState (rows.map deriveRoom)
    (buildInitialState (computeCapacities rows.length nNurses))
    (computeCapacities rows.length nNurses)

/-- Modelled from the spec: the variant engine of the open question in
section 9, with the hash-key computation removed from enrichment. -/
def assignRoomsMapNoHash (rows : List AssignmentInputRow) (nNurses : Nat) :
    Except String (List (String × Nat)) :=
  assignRoomsToState (rows.map deriveRoomNoHash)
    (buildInitialState (computeCapacities rows.length nNurses))
    (computeCapacities rows.length nNurses)

/-- Per-nurse bookkeeping invariant: id matches the capacity row, remaining
is non-negative, and remaining + nAssigned equals the planned capacity. -/
def NurseMatches (n : NurseState) (cap : NurseCapacity) : Prop :=
  n.nurseId = cap.nurseId ∧ 0 ≤ n.remaining ∧ n.remaining + n.nAssigned = cap.capacity

def NursesOK (state : List NurseState) (caps : List NurseCapacity) : Prop :=
  List.Forall₂ NurseMatches state caps

def sumAssigned (state : List NurseState) : Nat := (state.map (·.nAssigned)).sum

def sumRemaining (state : List NurseState) : Int := (state.map (·.remaining)).sum

def capsSum (caps : List NurseCapacity) : Nat := (caps.map (·.capacity)).sum

/-- Assignment-map bookkeeping invariant: distinct keys, one map entry per
recorded assignment, values drawn from the planned nurse ids. -/
def AssignOK (caps : List NurseCapacity) (es : EngineState) : Prop :=
  (es.assignment.map Prod.fst).Nodup ∧
  es.assignment.length = sumAssigned es.nurses ∧
  ∀ p ∈ es.assignment, p.2 ∈ caps.map (·.nurseId)

def EngineInv (caps : List NurseCapacity) (es : EngineState) : Prop :=
  NursesOK es.nurses caps ∧ AssignOK caps es

def millisOf (r : DerivedRoom) : Int := r.timeParsed.millis

/-- The set of distinct timestamps of a room list. -/
def millisFinset (rooms : List DerivedRoom) : Finset Int :=
  (rooms.map millisOf).toFinset

/-- Number of distinct timestamps strictly below m. -/
def distinctLtCount (rooms : List DerivedRoom) (m : Int) : Nat :=
  ((millisFinset rooms).filter (fun v => v < m)).card

/-- Number of distinct timestamps at most m, excluding the walk's last-seen
value (the generalized dense-rank count). -/
def rcount (last : Option Int) (s : Finset Int) (m : Int) : Nat :=
  (s.filter (fun v => v ≤ m ∧ some v ≠ last)).card

/-- The timezone-independent fields of a per-nurse row (everything except
the formatted label). -/
def nurseRowCore (r : NurseSummaryRow) :
    Nat × Nat × Option Nat × Option Int × Nat × Nat × Nat × Nat × Nat × Nat × Nat × Nat :=
  (r.nurse_id, r.n_rooms, r.oldest_rank_received, r.youngest_rank_received,
   r.n_discharge, r.n_under_24, r.n_over_24, r.n_baby_in_scn, r.n_gyn, r.n_bfi, r.n_cs, r.n_vag)

/-- The timezone-independent part of an assignment result. -/
def resultCore (res : AssignmentResult) :
    List RoomAssignmentRow ×
      List (Nat × Nat × Option Nat × Option Int × Nat × Nat × Nat × Nat × Nat × Nat × Nat × Nat) :=
  (res.perRoom, res.perNurse.map nurseRowCore)

/-- A trivial clock formatter used for concrete runs. -/
def fmt0 : DT → String → String := fun _ _ => ""

/-- A concrete DateTime at hour h, minute m of a fixed day. -/
def mkDT (h m : Nat) : DT :=
  { millis := ((h * 60 + m) * 60000 : Nat), hour := h, minute := m,
    minuteStamp := "2025-01-01 " ++ toString h ++ ":" ++ toString m }

/-- A concrete input row. -/
def mkRow (room : String) (h m : Nat) (dc u24 o24 scn gy bf c v : Bool) : AssignmentInputRow :=
  { room := room, timeParsed := mkDT h m, discharge := dc, under_24 := u24, over_24 := o24,
    baby_in_scn := scn, gyn := gy, bfi := bf, cs := c, vag := v }

/-- Spec scenario 1: six discharge rooms at ascending times plus two
untagged rooms. -/
def rowsC7 : List AssignmentInputRow :=
  [ mkRow "1" 8 0 true false false false false false false false
  , mkRow "3" 8 30 true false false false false false false false
  , mkRow "5" 9 0 true false false false false false false false
  , mkRow "7" 9 30 true false false false false false false false
  , mkRow "9" 10 0 true false false false false false false false
  , mkRow "11" 10 30 true false false false false false false false
  , mkRow "14-1" 11 0 false false false false false false false false
  , mkRow "14-2" 11 30 false false false false false false false false ]

/-- Spec scenario 2: three over_24+bfi rooms and three over_24+cs rooms. -/
def rowsC3 : List AssignmentInputRow :=
  [ mkRow "19" 6 0 false false true false false true false false
  , mkRow "21" 7 0 false false true false false true false false
  , mkRow "23" 8 0 false false true false false true false false
  , mkRow "25" 9 0 false false true false false false true false
  , mkRow "27" 10 0 false false true false false false true false
  , mkRow "32-1" 11 0 false false true false false false true false ]

/-- Counterexample input: two bfi rooms among five rooms and two nurses
(capacities [3,2]); nurse 1 ends with both bfi rooms. -/
def rowsCX : List AssignmentInputRow :=
  [ mkRow "1" 8 0 true false false false false true false false
  , mkRow "3" 9 0 true false false false false false false false
  , mkRow "5" 10 0 true false false false false false false false
  , mkRow "7" 11 0 true false false false false false false false
  , mkRow "9" 12 0 false false false false false true false false ]

/-- A small generic input used by witnesses. -/
def rowsW : List AssignmentInputRow :=
  [ mkRow "1" 8 0 true false false false false false false false
  , mkRow "3" 9 0 false false true false false false false false ]

/-- A concrete nurse state used by witnesses. -/
def nurseW : NurseState :=
  { nurseId := 1, remaining := 1, nAssigned := 0, loadSum := 0,
    assignedGroups := [], hasBfi := false, hasCs := false }

/-- A concrete derived room used by witnesses. -/
def roomW : DerivedRoom :=
  deriveRoom (mkRow "1" 8 0 true false false false false false false false)

/-! ### Sorting helper lemmas -/

theorem insertSorted_perm {α : Type} (lt : α → α → Bool) (x : α) (l : List α) :
    (insertSorted lt x l).Perm (x :: l) := by
  induction l with
  | nil => simp [insertSorted]
  | cons y ys ih =>
    simp only [insertSorted]
    split
    · exact (ih.cons y).trans (List.Perm.swap x y ys)
    · exact List.Perm.refl _

theorem jsSort_perm {α : Type} (lt : α → α → Bool) (l : List α) :
    (jsSort lt l).Perm l := by
  induction l with
  | nil => simp [jsSort]
  | cons x xs ih => exact (insertSorted_perm lt x (jsSort lt xs)).trans (ih.cons x)

theorem insertSorted_map {α β : Type} (f : α → β) (ltA : α → α → Bool) (ltB : β → β → Bool)
    (h : ∀ a b, ltB (f a) (f b) = ltA a b) (x : α) (l : List α) :
    insertSorted ltB (f x) (l.map f) = (insertSorted ltA x l).map f := by
  induction l with
  | nil => simp [insertSorted]
  | cons y ys ih =>
    simp only [List.map_cons, insertSorted, h]
    split
    · simp [ih]
    · simp

theorem jsSort_map {α β : Type} (f : α → β) (ltA : α → α → Bool) (ltB : β → β → Bool)
    (h : ∀ a b, ltB (f a) (f b) = ltA a b) (l : List α) :
    jsSort ltB (l.map f) = (jsSort ltA l).map f := by
  induction l with
  | nil => simp [jsSort]
  | cons x xs ih =>
    simp only [List.map_cons, jsSort, ih]
    exact insertSorted_map f ltA ltB h x (jsSort ltA xs)

theorem insertSorted_pairwise {α : Type} (R : α → α → Prop) (lt : α → α → Bool)
    (htrans : ∀ a b c, R a b → R b c → R a c)
    (h1 : ∀ a b, lt a b = true → R a b) (h2 : ∀ a b, lt a b = false → R b a)
    (x : α) (l : List α) (hl : l.Pairwise R) : (insertSorted lt x l).Pairwise R := by
  induction l with
  | nil => simp [insertSorted]
  | cons y ys ih =>
    rcases List.pairwise_cons.mp hl with ⟨hy, hys⟩
    simp only [insertSorted]
    split
    case isTrue hlt =>
      refine List.pairwise_cons.mpr ⟨?_, ih hys⟩
      intro z hz
      rcases List.mem_cons.mp ((insertSorted_perm lt x ys).mem_iff.mp hz) with hz | hz
      · exact hz ▸ h1 _ _ hlt
      · exact hy z hz
    case isFalse hlt =>
      have hlt' : lt y x = false := by
        revert hlt
        cases lt y x <;> simp
      refine List.pairwise_cons.mpr ⟨?_, List.pairwise_cons.mpr ⟨hy, hys⟩⟩
      intro z hz
      rcases List.mem_cons.mp hz with hz | hz
      · exact hz ▸ h2 _ _ hlt'
      · exact htrans _ _ _ (h2 _ _ hlt') (hy z hz)

theorem jsSort_pairwise {α : Type} (R : α → α → Prop) (lt : α → α → Bool)
    (htrans : ∀ a b c, R a b → R b c → R a c)
    (h1 : ∀ a b, lt a b = true → R a b) (h2 : ∀ a b, lt a b = false → R b a)
    (l : List α) : (jsSort lt l).Pairwise R := by
  induction l with
  | nil => simp [jsSort]
  | cons x xs ih => exact insertSorted_pairwise R lt htrans h1 h2 x (jsSort lt xs) ih

/-! ### Association-list (JS Map) helper lemmas -/

theorem mapHas_iff_mem (m : List (String × Nat)) (k : String) :
    mapHas m k = true ↔ k ∈ m.map Prod.fst := by
  simp [mapHas, List.any_eq_true, List.mem_map]

theorem mapHas_false_iff (m : List (String × Nat)) (k : String) :
    mapHas m k = false ↔ k ∉ m.map Prod.fst := by
  rw [← mapHas_iff_mem]
  cases mapHas m k <;> simp

theorem mapSet_fresh (m : List (String × Nat)) (k : String) (v : Nat)
    (h : mapHas m k = false) : mapSet m k v = m ++ [(k, v)] := by
  simp [mapSet, h]

theorem mapGet?_cons_ne (p : String × Nat) (m : List (String × Nat)) (k : String)
    (h : ¬ p.1 = k) : mapGet? (p :: m) k = mapGet? m k := by
  simp [mapGet?, List.find?_cons_of_neg, h]

theorem mapGet?_append_self (m : List (String × Nat)) (k : String) (v : Nat)
    (h : mapHas m k = false) : mapGet? (m ++ [(k, v)]) k = some v := by
  induction m with
  | nil => simp [mapGet?]
  | cons p rest ih =>
    have hnot := (mapHas_false_iff _ _).mp h
    simp only [List.map_cons, List.mem_cons] at hnot
    push_neg at hnot
    have hp : ¬ p.1 = k := fun hk => hnot.1 hk.symm
    have hrest : mapHas rest k = false := (mapHas_false_iff _ _).mpr hnot.2
    rw [List.cons_append, mapGet?_cons_ne _ _ _ hp]
    exact ih hrest

theorem mapGet?_append_ne (m : List (String × Nat)) (k k' : String) (v : Nat)
    (h : ¬ k' = k) : mapGet? (m ++ [(k, v)]) k' = mapGet? m k' := by
  induction m with
  | nil =>
    have h' : ¬ k = k' := fun hk => h hk.symm
    simp [mapGet?, List.find?_cons_of_neg, h']
  | cons p rest ih =>
    by_cases hp : p.1 = k'
    · simp [mapGet?, List.find?_cons_of_pos, hp]
    · rw [List.cons_append, mapGet?_cons_ne _ _ _ hp, mapGet?_cons_ne _ _ _ hp]
      exact ih

theorem mapGet?_mem (m : List (String × Nat)) (k : String) (v : Nat)
    (h : mapGet? m k = some v) : (k, v) ∈ m := by
  induction m with
  | nil => simp [mapGet?] at h
  | cons p rest ih =>
    obtain ⟨a, b⟩ := p
    by_cases hp : a = k
    · simp [mapGet?, List.find?_cons_of_pos, hp] at h
      exact List.mem_cons.mpr (Or.inl (by simp [hp, h]))
    · rw [mapGet?_cons_ne _ _ _ hp] at h
      exact List.mem_cons_of_mem _ (ih h)

theorem mapGet?_isSome_of_has (m : List (String × Nat)) (k : String)
    (h : mapHas m k = true) : ∃ v, mapGet? m k = some v := by
  induction m with
  | nil => simp [mapHas] at h
  | cons p rest ih =>
    by_cases hp : p.1 = k
    · exact ⟨p.2, by simp [mapGet?, List.find?_cons_of_pos, hp]⟩
    · have hrest : mapHas rest k = true := by
        revert h
        simp [mapHas]
        rintro (h1 | h2)
        · exact absurd h1 hp
        · exact h2
      rw [mapGet?_cons_ne _ _ _ hp]
      exact ih hrest

/-! ### Capacity planner lemmas -/

theorem sum_range_capacity (base rem n : Nat) :
    ((List.range n).map (fun idx => if idx < rem then base + 1 else base)).sum
      = n * base + min rem n := by
  induction n with
  | zero => simp
  | succ n ih =>
    rw [List.range_succ, List.map_append, List.sum_append, ih]
    simp only [List.map_cons, List.map_nil, List.sum_cons, List.sum_nil]
    have hmul : (n + 1) * base = n * base + base := by ring
    rw [hmul]
    split <;> omega

theorem capsSum_computeCapacities (R N : Nat) (hN : 1 ≤ N) :
    capsSum (computeCapacities R N) = R := by
  simp only [capsSum, computeCapacities]
  rw [List.map_map]
  rw [show ((fun c : NurseCapacity => c.capacity) ∘ fun idx =>
      ({ nurseId := idx + 1, capacity := if idx < R % N then R / N + 1 else R / N } : NurseCapacity))
      = (fun idx => if idx < R % N then R / N + 1 else R / N) from rfl]
  rw [sum_range_capacity]
  have h1 : R % N < N := Nat.mod_lt _ (by omega)
  have h2 := Nat.div_add_mod R N
  omega

theorem computeCapacities_length (R N : Nat) : (computeCapacities R N).length = N := by
  simp [computeCapacities]

theorem computeCapacities_ids (R N : Nat) :
    (computeCapacities R N).map (·.nurseId) = (List.range N).map (· + 1) := by
  simp only [computeCapacities, List.map_map]
  rfl

theorem computeCapacities_ids_nodup (R N : Nat) :
    ((computeCapacities R N).map (·.nurseId)).Nodup := by
  rw [computeCapacities_ids]
  exact List.Nodup.map (add_left_injective 1) (List.nodup_range N)

/-! ### Counting helper lemmas -/

theorem sum_ite_count (v : Nat) (ks : List Nat) (c : Nat → Nat) (hnd : ks.Nodup) (hv : v ∈ ks) :
    (ks.map (fun k => if v = k then c k + 1 else c k)).sum = (ks.map c).sum + 1 := by
  induction ks with
  | nil => simp at hv
  | cons k rest ih =>
    rcases List.mem_cons.mp hv with rfl | hv'
    · simp only [List.map_cons, List.sum_cons, if_pos rfl]
      have hrw : ∀ x ∈ rest, (if v = x then c x + 1 else c x) = c x := by
        intro x hx
        rw [if_neg]
        intro h
        exact (List.nodup_cons.mp hnd).1 (by rw [h]; exact hx)
      rw [List.map_congr_left hrw]
      simp [Nat.add_comm, Nat.add_left_comm, Nat.add_assoc]
    · have hk : ¬ v = k := by
        intro h
        exact (List.nodup_cons.mp hnd).1 (by rw [← h]; exact hv')
      simp only [List.map_cons, List.sum_cons, if_neg hk]
      rw [ih (List.nodup_cons.mp hnd).2 hv']
      omega

theorem length_eq_sum_bucket {α : Type} (f : α → Nat) (l : List α) (ks : List Nat)
    (hnd : ks.Nodup) (hf : ∀ x ∈ l, f x ∈ ks) :
    (ks.map (fun k => (l.filter (fun x => f x = k)).length)).sum = l.length := by
  induction l with
  | nil => simp
  | cons x xs ih =>
    have hx := hf x (List.mem_cons_self _ _)
    have hxs : ∀ y ∈ xs, f y ∈ ks := fun y hy => hf y (List.mem_cons_of_mem _ hy)
    have hcong : ∀ k ∈ ks, ((x :: xs).filter (fun y => f y = k)).length
        = (if f x = k then (xs.filter (fun y => f y = k)).length + 1
           else (xs.filter (fun y => f y = k)).length) := by
      intro k _
      by_cases h : f x = k <;> simp [List.filter_cons, h]
    rw [List.map_congr_left hcong]
    have hcong2 : ∀ k ∈ ks, (if f x = k then (xs.filter (fun y => f y = k)).length + 1
        else (xs.filter (fun y => f y = k)).length)
        = (fun k => if f x = k then (fun k2 => (xs.filter (fun y => f y = k2)).length) k + 1
           else (fun k2 => (xs.filter (fun y => f y = k2)).length) k) k := by
      intro k _
      rfl
    rw [List.map_congr_left hcong2, sum_ite_count (f x) ks _ hnd hx, ih hxs]
    simp

/-! ### Hash-key lemmas -/

theorem foldl_add_map {α : Type} (f : α → Nat) (l : List α) (a : Nat) :
    l.foldl (fun acc p => acc + f p) a = a + (l.map f).sum := by
  induction l generalizing a with
  | nil => simp
  | cons x xs ih =>
    rw [List.foldl_cons, ih]
    simp [List.sum_cons]
    omega

theorem stablePseudoRandomKey_eq_spec (room : String) (t : DT) :
    stablePseudoRandomKey room t = hashKeySpec room t := by
  unfold stablePseudoRandomKey hashKeySpec
  rw [foldl_add_map]
  simp

/-! ### Nurse-state bookkeeping lemmas -/

theorem applyAssign_nurseId (room : DerivedRoom) (n : NurseState) :
    (applyAssign room n).nurseId = n.nurseId := rfl

theorem nursesOK_ids {ns : List NurseState} {caps : List NurseCapacity}
    (h : NursesOK ns caps) : ns.map (·.nurseId) = caps.map (·.nurseId) := by
  induction h with
  | nil => rfl
  | cons hpair _ ih => simp [List.map_cons, hpair.1, ih]

theorem nursesOK_sum {ns : List NurseState} {caps : List NurseCapacity}
    (h : NursesOK ns caps) :
    sumRemaining ns + (sumAssigned ns : Int) = (capsSum caps : Int) := by
  induction h with
  | nil => simp [sumRemaining, sumAssigned, capsSum]
  | cons hpair _ ih =>
    simp only [sumRemaining, sumAssigned, capsSum, List.map_cons, List.sum_cons] at ih ⊢
    have h2 := hpair.2.2
    push_cast at ih ⊢
    omega

theorem nursesOK_nonneg {ns : List NurseState} {caps : List NurseCapacity}
    (h : NursesOK ns caps) : ∀ n ∈ ns, 0 ≤ n.remaining := by
  induction h with
  | nil => simp
  | cons hpair _ ih =>
    intro n hn
    rcases List.mem_cons.mp hn with rfl | hn
    · exact hpair.2.1
    · exact ih n hn

theorem exists_pos_remaining {ns : List NurseState}
    (hnonneg : ∀ n ∈ ns, 0 ≤ n.remaining) (hpos : 0 < sumRemaining ns) :
    ∃ n ∈ ns, 0 < n.remaining := by
  induction ns with
  | nil => simp [sumRemaining] at hpos
  | cons n rest ih =>
    by_cases h : 0 < n.remaining
    · exact ⟨n, List.mem_cons_self _ _, h⟩
    · have hn0 : n.remaining = 0 :=
        le_antisymm (not_lt.mp h) (hnonneg n (List.mem_cons_self _ _))
      have hpos' : 0 < sumRemaining rest := by
        simp only [sumRemaining, List.map_cons, List.sum_cons, hn0] at hpos
        simpa [sumRemaining] using hpos
      rcases ih (fun m hm => hnonneg m (List.mem_cons_of_mem _ hm)) hpos' with ⟨m, hm, hmpos⟩
      exact ⟨m, List.mem_cons_of_mem _ hm, hmpos⟩

theorem getRoundRobinOrder_eq_rotate (es : EngineState) :
    getRoundRobinOrder es = es.nurses.rotate es.rrIndex := by
  apply List.ext_getElem
  · simp [getRoundRobinOrder]
  · intro n h1 h2
    simp only [getRoundRobinOrder, List.getElem_map, List.getElem_range]
    have hlen : 0 < es.nurses.length := by
      simp only [getRoundRobinOrder, List.length_map, List.length_range] at h1
      omega
    have hidx : (n + es.rrIndex) % es.nurses.length < es.nurses.length :=
      Nat.mod_lt _ hlen
    rw [Nat.add_comm es.rrIndex n]
    rw [List.getD_eq_getElem?_getD, List.getElem?_eq_getElem hidx, Option.getD_some,
      List.getElem_rotate]

theorem getRoundRobinOrder_perm (es : EngineState) :
    (getRoundRobinOrder es).Perm es.nurses := by
  rw [getRoundRobinOrder_eq_rotate]
  exact es.nurses.rotate_perm es.rrIndex

theorem nursesOK_update (room : DerivedRoom) :
    ∀ (ns : List NurseState) (caps : List NurseCapacity), NursesOK ns caps →
    (ns.map (·.nurseId)).Nodup → ∀ n0 ∈ ns, 0 < n0.remaining →
    NursesOK (updateNurseState n0.nurseId room ns) caps ∧
    sumAssigned (updateNurseState n0.nurseId room ns) = sumAssigned ns + 1 := by
  intro ns
  induction ns with
  | nil =>
    intro caps _ _ n0 hmem
    simp at hmem
  | cons n rest ih =>
    intro caps hok hnd n0 hmem hpos
    cases caps with
    | nil => cases hok
    | cons cap crest =>
      have hpair := (List.forall₂_cons.mp hok).1
      have hrest := (List.forall₂_cons.mp hok).2
      by_cases hid : n.nurseId = n0.nurseId
      · have hn0 : n0 = n := by
          rcases List.mem_cons.mp hmem with h | h
          · exact h
          · exfalso
            have hmm : n0.nurseId ∈ rest.map (·.nurseId) := List.mem_map_of_mem _ h
            rw [← hid] at hmm
            exact (List.nodup_cons.mp hnd).1 hmm
      -- the head is the unique nurse with this id and has remaining > 0
        have hposn : 0 < n.remaining := by rw [← hn0]; exact hpos
        constructor
        · simp only [updateNurseState, if_pos hid]
          refine List.forall₂_cons.mpr ⟨⟨?_, ?_, ?_⟩, hrest⟩
          · rw [applyAssign_nurseId]
            exact hpair.1
          · simp [applyAssign]
          · have h2 := hpair.2.2
            simp only [applyAssign]
            push_cast
            omega
        · simp only [updateNurseState, if_pos hid, sumAssigned, List.map_cons, List.sum_cons,
            applyAssign]
          omega
      · have hmem' : n0 ∈ rest := by
          rcases List.mem_cons.mp hmem with h | h
          · exfalso
            exact hid (by rw [h])
          · exact h
        obtain ⟨hok', hsum'⟩ := ih crest hrest (List.nodup_cons.mp hnd).2 n0 hmem' hpos
        constructor
        · simp only [updateNurseState, if_neg hid]
          exact List.forall₂_cons.mpr ⟨hpair, hok'⟩
        · simp only [updateNurseState, if_neg hid, sumAssigned, List.map_cons,
            List.sum_cons] at hsum' ⊢
          omega

theorem nursesOK_init (caps : List NurseCapacity) :
    NursesOK (buildInitialState caps) caps := by
  induction caps with
  | nil => exact List.Forall₂.nil
  | cons cap rest ih =>
    refine List.forall₂_cons.mpr ⟨⟨rfl, ?_, by simp [buildInitialState]⟩, ih⟩
    show (0 : ℤ) ≤ (cap.capacity : ℤ)
    exact_mod_cast Nat.zero_le cap.capacity

theorem sumAssigned_init (caps : List NurseCapacity) :
    sumAssigned (buildInitialState caps) = 0 := by
  induction caps with
  | nil => rfl
  | cons cap rest ih => simpa [buildInitialState, sumAssigned] using ih

/-! ### Step lemmas: every assignment step succeeds while capacity remains -/

theorem scoreNurse_nurseId (room : DerivedRoom) (capacityMap : List (Nat × Nat))
    (tc : ℚ) (asf : Nat) (mlt : ℚ) (sl : Nat) (nurse : NurseState) :
    (scoreNurse room capacityMap tc asf mlt sl nurse).nurseId = nurse.nurseId := rfl

theorem headD_filter_mem {α : Type} (p : α → Bool) (c : α) (l : List α) (hc : c ∈ l) :
    ((l.filter p).headD c) ∈ l := by
  rcases hf : l.filter p with _ | ⟨a, rest⟩
  · exact hc
  · have ha : a ∈ l.filter p := by
      rw [hf]
      exact List.mem_cons_self _ _
    exact (List.mem_filter.mp ha).1

theorem headD_jsSort_map_mem {α β : Type} (lt : β → β → Bool) (f : α → β) (c : α) (l : List α) :
    ∃ a ∈ c :: l, (jsSort lt ((c :: l).map f)).headD (f c) = f a := by
  rcases hs : jsSort lt ((c :: l).map f) with _ | ⟨b, rest⟩
  · exact ⟨c, List.mem_cons_self _ _, rfl⟩
  · have hb : b ∈ jsSort lt ((c :: l).map f) := by
      rw [hs]
      exact List.mem_cons_self _ _
    have hb2 : b ∈ (c :: l).map f := (jsSort_perm lt _).mem_iff.mp hb
    obtain ⟨a, ha, hab⟩ := List.mem_map.mp hb2
    exact ⟨a, ha, hab.symm⟩

theorem invariant_pos_remaining (caps : List NurseCapacity) (es : EngineState)
    (hinv : EngineInv caps es) (hlt : es.assignment.length < capsSum caps) :
    ∃ n ∈ es.nurses, 0 < n.remaining := by
  obtain ⟨hok, _, hlen, _⟩ := hinv
  have hsum := nursesOK_sum hok
  have hpos : 0 < sumRemaining es.nurses := by
    have h1 : (es.assignment.length : Int) = (sumAssigned es.nurses : Int) := by exact_mod_cast hlen
    have h2 : (es.assignment.length : Int) < (capsSum caps : Int) := by exact_mod_cast hlt
    omega
  exact exists_pos_remaining (nursesOK_nonneg hok) hpos

theorem assignOK_extend (caps : List NurseCapacity) (es : EngineState)
    (hndk : (es.assignment.map Prod.fst).Nodup)
    (hlen : es.assignment.length = sumAssigned es.nurses)
    (hvals : ∀ p ∈ es.assignment, p.2 ∈ caps.map (·.nurseId))
    (hfresh : mapHas es.assignment room = false)
    (hid : nid ∈ caps.map (·.nurseId)) :
    ((es.assignment ++ [(room, nid)]).map Prod.fst).Nodup ∧
    (es.assignment ++ [(room, nid)]).length = sumAssigned es.nurses + 1 ∧
    ∀ p ∈ es.assignment ++ [(room, nid)], p.2 ∈ caps.map (·.nurseId) := by
  refine ⟨?_, ?_, ?_⟩
  · rw [List.map_append, List.nodup_append]
    refine ⟨hndk, by simp, ?_⟩
    rw [List.disjoint_left]
    intro a ha hb
    simp only [List.map_cons, List.map_nil, List.mem_singleton] at hb
    rw [hb] at ha
    exact (mapHas_false_iff _ _).mp hfresh ha
  · simp [hlen]
  · intro p hp
    rcases List.mem_append.mp hp with hp | hp
    · exact hvals p hp
    · simp only [List.mem_singleton] at hp
      rw [hp]
      exact hid

theorem rrStep_ok (caps : List NurseCapacity) (room : DerivedRoom) (es : EngineState)
    (hcnd : (caps.map (·.nurseId)).Nodup)
    (hinv : EngineInv caps es) (hfresh : mapHas es.assignment room.room = false)
    (hlt : es.assignment.length < capsSum caps) :
    ∃ es', rrStep room es = .ok es' ∧ EngineInv caps es' ∧
      es'.assignment.map Prod.fst = es.assignment.map Prod.fst ++ [room.room] := by
  obtain ⟨hok, hndk, hlen, hvals⟩ := hinv
  have hidnd : (es.nurses.map (·.nurseId)).Nodup := by
    rw [nursesOK_ids hok]
    exact hcnd
  obtain ⟨n0, hn0mem, hn0pos⟩ :=
    invariant_pos_remaining caps es ⟨hok, hndk, hlen, hvals⟩ hlt
  have hn0rot : n0 ∈ getRoundRobinOrder es := (getRoundRobinOrder_perm es).mem_iff.mpr hn0mem
  have hn0cand : n0 ∈ (getRoundRobinOrder es).filter (fun n => decide (0 < n.remaining)) :=
    List.mem_filter.mpr ⟨hn0rot, by simpa using hn0pos⟩
  rcases hc : (getRoundRobinOrder es).filter (fun n => decide (0 < n.remaining)) with _ | ⟨c, cs⟩
  · rw [hc] at hn0cand
    simp at hn0cand
  · have hch : (((c :: cs).filter
        (fun n => !(room.bfi && n.hasBfi) && !(room.cs && n.hasCs))).headD c) ∈ c :: cs :=
      headD_filter_mem _ c (c :: cs) (List.mem_cons_self _ _)
    have hch2 : (((c :: cs).filter
        (fun n => !(room.bfi && n.hasBfi) && !(room.cs && n.hasCs))).headD c)
        ∈ (getRoundRobinOrder es).filter (fun n => decide (0 < n.remaining)) := by
      rw [hc]
      exact hch
    have hchf := List.mem_filter.mp hch2
    have hchmem := (getRoundRobinOrder_perm es).mem_iff.mp hchf.1
    have hchpos : 0 < ((((c :: cs).filter
        (fun n => !(room.bfi && n.hasBfi) && !(room.cs && n.hasCs))).headD c)).remaining := by
      simpa using hchf.2
    obtain ⟨hupd, hsumupd⟩ := nursesOK_update room es.nurses caps hok hidnd _ hchmem hchpos
    have hchid : ((((c :: cs).filter
        (fun n => !(room.bfi && n.hasBfi) && !(room.cs && n.hasCs))).headD c)).nurseId
        ∈ caps.map (·.nurseId) := by
      rw [← nursesOK_ids hok]
      exact List.mem_map_of_mem _ hchmem
    obtain ⟨ha1, ha2, ha3⟩ := assignOK_extend caps es hndk hlen hvals hfresh hchid
    simp only [rrStep, hc]
    rw [mapSet_fresh _ _ _ hfresh]
    refine ⟨_, rfl, ⟨hupd, ha1, ?_, ha3⟩, by simp⟩
    rw [hsumupd]
    exact ha2

theorem pickNurse_ok (room : DerivedRoom) (ns : List NurseState)
    (caps : List NurseCapacity) (capacityMap : List (Nat × Nat))
    (hex : ∃ n ∈ ns, 0 < n.remaining) :
    ∃ n0 ∈ ns, 0 < n0.remaining ∧ pickNurse room ns caps capacityMap = .ok n0.nurseId := by
  obtain ⟨n1, hn1mem, hn1pos⟩ := hex
  have hn1cand : n1 ∈ ns.filter (fun n => decide (0 < n.remaining)) :=
    List.mem_filter.mpr ⟨hn1mem, by simpa using hn1pos⟩
  rcases hc : ns.filter (fun n => decide (0 < n.remaining)) with _ | ⟨c, cs⟩
  · rw [hc] at hn1cand
    simp at hn1cand
  · obtain ⟨cand, hcandmem, hhead⟩ :=
      headD_jsSort_map_mem scoredLt
        (scoreNurse room capacityMap ((caps.map (fun cap => (cap.capacity : ℚ))).sum)
          ((ns.map (·.nAssigned)).sum)
          (((ns.map (·.loadSum)).sum + room.wEffective) / (ns.length : ℚ)) ns.length) c cs
    have hcand2 : cand ∈ ns.filter (fun n => decide (0 < n.remaining)) := by
      rw [hc]
      exact hcandmem
    have hf := List.mem_filter.mp hcand2
    refine ⟨cand, hf.1, by simpa using hf.2, ?_⟩
    simp only [pickNurse, hc]
    rw [hhead, scoreNurse_nurseId]

theorem scoreStep_ok (caps : List NurseCapacity) (capacityMap : List (Nat × Nat))
    (room : DerivedRoom) (es : EngineState)
    (hcnd : (caps.map (·.nurseId)).Nodup)
    (hinv : EngineInv caps es) (hfresh : mapHas es.assignment room.room = false)
    (hlt : es.assignment.length < capsSum caps) :
    ∃ es', scoreStep caps capacityMap room es = .ok es' ∧ EngineInv caps es' ∧
      es'.assignment.map Prod.fst = es.assignment.map Prod.fst ++ [room.room] := by
  obtain ⟨hok, hndk, hlen, hvals⟩ := hinv
  have hidnd : (es.nurses.map (·.nurseId)).Nodup := by
    rw [nursesOK_ids hok]
    exact hcnd
  obtain ⟨n0, hn0mem, hn0pos, hpick⟩ :=
    pickNurse_ok room es.nurses caps capacityMap
      (invariant_pos_remaining caps es ⟨hok, hndk, hlen, hvals⟩ hlt)
  obtain ⟨hupd, hsumupd⟩ := nursesOK_update room es.nurses caps hok hidnd n0 hn0mem hn0pos
  have hid : n0.nurseId ∈ caps.map (·.nurseId) := by
    rw [← nursesOK_ids hok]
    exact List.mem_map_of_mem _ hn0mem
  obtain ⟨ha1, ha2, ha3⟩ := assignOK_extend caps es hndk hlen hvals hfresh hid
  refine ⟨⟨updateNurseState n0.nurseId room es.nurses,
    es.assignment ++ [(room.room, n0.nurseId)], es.rrIndex⟩, ?_, ⟨hupd, ha1, ?_, ha3⟩, by simp⟩
  · simp only [scoreStep, hfresh]
    rw [if_neg (by simp), hpick]
    simp only [mapSet_fresh _ _ _ hfresh]
  · rw [hsumupd]
    exact ha2

/-! ### Phase lemmas -/

theorem runPhase_ok (caps : List NurseCapacity)
    (step : DerivedRoom → EngineState → Except String EngineState)
    (hstep : ∀ room es, EngineInv caps es → mapHas es.assignment room.room = false →
      es.assignment.length < capsSum caps →
      ∃ es', step room es = .ok es' ∧ EngineInv caps es' ∧
        es'.assignment.map Prod.fst = es.assignment.map Prod.fst ++ [room.room]) :
    ∀ (xs : List DerivedRoom) (es : EngineState), EngineInv caps es →
      (xs.map (·.room)).Nodup →
      (∀ r ∈ xs, mapHas es.assignment r.room = false) →
      es.assignment.length + xs.length ≤ capsSum caps →
      ∃ es', runPhase step xs es = .ok es' ∧ EngineInv caps es' ∧
        es'.assignment.map Prod.fst = es.assignment.map Prod.fst ++ xs.map (·.room) := by
  intro xs
  induction xs with
  | nil =>
    intro es hinv _ _ _
    exact ⟨es, rfl, hinv, by simp⟩
  | cons x xs ih =>
    intro es hinv hnd hfresh hle
    obtain ⟨es1, hstep1, hinv1, hkeys1⟩ :=
      hstep x es hinv (hfresh x (List.mem_cons_self _ _)) (by simp at hle; omega)
    have hlen1 : es1.assignment.length = es.assignment.length + 1 := by
      have hcg := congrArg List.length hkeys1
      simpa using hcg
    have hfresh1 : ∀ r ∈ xs, mapHas es1.assignment r.room = false := by
      intro r hr
      rw [mapHas_false_iff, hkeys1]
      simp only [List.mem_append, List.mem_singleton]
      push_neg
      constructor
      · exact (mapHas_false_iff _ _).mp (hfresh r (List.mem_cons_of_mem _ hr))
      · intro hcontra
        have hm : r.room ∈ xs.map (·.room) := List.mem_map_of_mem _ hr
        rw [hcontra] at hm
        exact (List.nodup_cons.mp hnd).1 hm
    have hle1 : es1.assignment.length + xs.length ≤ capsSum caps := by
      simp only [List.length_cons] at hle
      omega
    obtain ⟨es2, hrun, hinv2, hkeys2⟩ := ih es1 hinv1 (List.nodup_cons.mp hnd).2 hfresh1 hle1
    refine ⟨es2, ?_, hinv2, ?_⟩
    · simp only [runPhase, hstep1]
      exact hrun
    · rw [hkeys2, hkeys1]
      simp

theorem orderedPhase_ok (caps : List NurseCapacity)
    (step : DerivedRoom → EngineState → Except String EngineState)
    (hstep : ∀ room es, EngineInv caps es → mapHas es.assignment room.room = false →
      es.assignment.length < capsSum caps →
      ∃ es', step room es = .ok es' ∧ EngineInv caps es' ∧
        es'.assignment.map Prod.fst = es.assignment.map Prod.fst ++ [room.room])
    (allIds : List String) (hcap : capsSum caps = allIds.length)
    (data : List DerivedRoom) (dir : SortDirection) (es : EngineState)
    (hinv : EngineInv caps es)
    (hdnd : (data.map (·.room)).Nodup)
    (hsub : ∀ r ∈ data, r.room ∈ allIds)
    (hkeys : ∀ k ∈ es.assignment.map Prod.fst, k ∈ allIds) :
    ∃ es', runPhase step ((sortByAgeThenTime data dir).filter
        (fun room => !(mapHas es.assignment room.room))) es = .ok es' ∧
      EngineInv caps es' ∧
      es'.assignment.map Prod.fst = es.assignment.map Prod.fst ++
        (((sortByAgeThenTime data dir).filter
          (fun room => !(mapHas es.assignment room.room))).map (·.room)) := by
  have hperm : (sortByAgeThenTime data dir).Perm data := jsSort_perm _ data
  have hsortnd : ((sortByAgeThenTime data dir).map (·.room)).Nodup :=
    (hperm.map (·.room)).symm.nodup hdnd
  have hordsub : ((sortByAgeThenTime data dir).filter
      (fun room => !(mapHas es.assignment room.room))).Sublist (sortByAgeThenTime data dir) :=
    List.filter_sublist _
  have hordnd : (((sortByAgeThenTime data dir).filter
      (fun room => !(mapHas es.assignment room.room))).map (·.room)).Nodup :=
    (hordsub.map (·.room)).nodup hsortnd
  have hordfresh : ∀ r ∈ (sortByAgeThenTime data dir).filter
      (fun room => !(mapHas es.assignment room.room)), mapHas es.assignment r.room = false := by
    intro r hr
    have := (List.mem_filter.mp hr).2
    simpa using this
  have hordall : ∀ r ∈ (sortByAgeThenTime data dir).filter
      (fun room => !(mapHas es.assignment room.room)), r.room ∈ allIds := by
    intro r hr
    exact hsub r (hperm.mem_iff.mp (List.mem_of_mem_filter hr))
  have hdisj : (es.assignment.map Prod.fst).Disjoint
      (((sortByAgeThenTime data dir).filter
        (fun room => !(mapHas es.assignment room.room))).map (·.room)) := by
    rw [List.disjoint_left]
    intro a ha hb
    obtain ⟨r, hr, hra⟩ := List.mem_map.mp hb
    have := hordfresh r hr
    rw [hra] at this
    exact (mapHas_false_iff _ _).mp this ha
  have happnd : ((es.assignment.map Prod.fst) ++
      (((sortByAgeThenTime data dir).filter
        (fun room => !(mapHas es.assignment room.room))).map (·.room))).Nodup :=
    List.nodup_append.mpr ⟨hinv.2.1, hordnd, hdisj⟩
  have happsub : ∀ k ∈ (es.assignment.map Prod.fst) ++
      (((sortByAgeThenTime data dir).filter
        (fun room => !(mapHas es.assignment room.room))).map (·.room)), k ∈ allIds := by
    intro k hk
    rcases List.mem_append.mp hk with hk | hk
    · exact hkeys k hk
    · obtain ⟨r, hr, hra⟩ := List.mem_map.mp hk
      rw [← hra]
      exact hordall r hr
  have hle : es.assignment.length + ((sortByAgeThenTime data dir).filter
      (fun room => !(mapHas es.assignment room.room))).length ≤ capsSum caps := by
    have hsp := (List.Nodup.subperm happnd happsub).length_le
    rw [List.length_append, List.length_map, List.length_map] at hsp
    rw [hcap]
    exact hsp
  exact runPhase_ok caps step hstep _ es hinv hordnd hordfresh hle


theorem orderedKeys_sub (p : DerivedRoom → Bool) (m : List (String × Nat))
    (dir : SortDirection) (rooms : List DerivedRoom) :
    ∀ k ∈ ((sortByAgeThenTime (rooms.filter p) dir).filter
      (fun room => !(mapHas m room.room))).map (·.room), k ∈ rooms.map (·.room) := by
  intro k hk
  obtain ⟨r, hr, hra⟩ := List.mem_map.mp hk
  have hr3 : r ∈ rooms.filter p := (jsSort_perm _ _).mem_iff.mp (List.mem_of_mem_filter hr)
  rw [← hra]
  exact List.mem_map_of_mem _ (List.mem_of_mem_filter hr3)

set_option maxHeartbeats 1000000 in
theorem assignRoomsToState_ok (rooms : List DerivedRoom) (caps : List NurseCapacity)
    (hnd : (rooms.map (·.room)).Nodup)
    (hcnd : (caps.map (·.nurseId)).Nodup)
    (hcap : capsSum caps = rooms.length) :
    ∃ m, assignRoomsToState rooms (buildInitialState caps) caps = .ok m ∧
      (m.map Prod.fst).Perm (rooms.map (·.room)) ∧
      (m.map Prod.fst).Nodup ∧
      ∀ p ∈ m, p.2 ∈ caps.map (·.nurseId) := by
  have hinv0 : EngineInv caps ⟨buildInitialState caps, [], 0⟩ := by
    refine ⟨nursesOK_init caps, by simp, ?_, by simp⟩
    simp [sumAssigned_init]
  have hcap' : capsSum caps = (rooms.map (·.room)).length := by
    rw [List.length_map]
    exact hcap
  have hsubnd : ∀ (p : DerivedRoom → Bool), ((rooms.filter p).map (·.room)).Nodup :=
    fun p => ((List.filter_sublist rooms).map _).nodup hnd
  have hsubids : ∀ (p : DerivedRoom → Bool), ∀ r ∈ rooms.filter p,
      r.room ∈ rooms.map (·.room) :=
    fun p r hr => List.mem_map_of_mem _ (List.mem_of_mem_filter hr)
  have hstepRR : ∀ room es, EngineInv caps es → mapHas es.assignment room.room = false →
      es.assignment.length < capsSum caps →
      ∃ es', rrStep room es = .ok es' ∧ EngineInv caps es' ∧
        es'.assignment.map Prod.fst = es.assignment.map Prod.fst ++ [room.room] :=
    fun room es hinv hf hl => rrStep_ok caps room es hcnd hinv hf hl
  -- phase 1 (discharge)
  obtain ⟨es1, h1eq, hinv1, hkeys1⟩ :=
    orderedPhase_ok caps rrStep hstepRR (rooms.map (·.room)) hcap'
      (rooms.filter (fun room => room.discharge)) .oldest ⟨buildInitialState caps, [], 0⟩
      hinv0 (hsubnd _) (hsubids _) (by simp)
  have hkeys1sub : ∀ k ∈ es1.assignment.map Prod.fst, k ∈ rooms.map (·.room) := by
    intro k hk
    rw [hkeys1] at hk
    rcases List.mem_append.mp hk with hk | hk
    · simp at hk
    · exact orderedKeys_sub _ _ _ rooms k hk
  -- phase 2 (under_24)
  obtain ⟨es2, h2eq, hinv2, hkeys2⟩ :=
    orderedPhase_ok caps rrStep hstepRR (rooms.map (·.room)) hcap'
      (rooms.filter (fun room => room.under_24)) .oldest es1 hinv1 (hsubnd _) (hsubids _)
      hkeys1sub
  have hkeys2sub : ∀ k ∈ es2.assignment.map Prod.fst, k ∈ rooms.map (·.room) := by
    intro k hk
    rw [hkeys2] at hk
    rcases List.mem_append.mp hk with hk | hk
    · exact hkeys1sub k hk
    · exact orderedKeys_sub _ _ _ rooms k hk
  -- phase 3 (over_24)
  obtain ⟨es3, h3eq, hinv3, hkeys3⟩ :=
    orderedPhase_ok caps rrStep hstepRR (rooms.map (·.room)) hcap'
      (rooms.filter (fun room => room.over_24)) .oldest es2 hinv2 (hsubnd _) (hsubids _)
      hkeys2sub
  have hkeys3sub : ∀ k ∈ es3.assignment.map Prod.fst, k ∈ rooms.map (·.room) := by
    intro k hk
    rw [hkeys3] at hk
    rcases List.mem_append.mp hk with hk | hk
    · exact hkeys2sub k hk
    · exact orderedKeys_sub _ _ _ rooms k hk
  -- phase 4 (scored, remaining rooms)
  have hstepSC := fun room es =>
    scoreStep_ok caps (caps.map (fun cap => (cap.nurseId, cap.capacity))) room es hcnd
  obtain ⟨es4, h4eq, hinv4, hkeys4⟩ :=
    orderedPhase_ok caps _ hstepSC (rooms.map (·.room)) hcap'
      (rooms.filter (fun room => !(mapHas es3.assignment room.room))) .oldest es3 hinv3
      (hsubnd _) (hsubids _) hkeys3sub
  have hkeys4sub : ∀ k ∈ es4.assignment.map Prod.fst, k ∈ rooms.map (·.room) := by
    intro k hk
    rw [hkeys4] at hk
    rcases List.mem_append.mp hk with hk | hk
    · exact hkeys3sub k hk
    · exact orderedKeys_sub _ _ _ rooms k hk
  -- phase 4's upfront filter keeps everything: its rooms are exactly the unassigned ones
  have hfilterall : (sortByAgeThenTime
        (rooms.filter (fun room => !(mapHas es3.assignment room.room))) .oldest).filter
        (fun room => !(mapHas es3.assignment room.room))
      = sortByAgeThenTime (rooms.filter (fun room => !(mapHas es3.assignment room.room))) .oldest := by
    rw [List.filter_eq_self]
    intro r hr
    have hr2 : r ∈ rooms.filter (fun room => !(mapHas es3.assignment room.room)) :=
      (jsSort_perm _ _).mem_iff.mp hr
    exact (List.mem_filter.mp hr2).2
  -- coverage: every input room id ends up among the keys
  have hcover : ∀ k ∈ rooms.map (·.room), k ∈ es4.assignment.map Prod.fst := by
    intro k hk
    obtain ⟨r, hr, hrk⟩ := List.mem_map.mp hk
    by_cases hcase : mapHas es3.assignment r.room = true
    · rw [hkeys4]
      apply List.mem_append_left
      rw [← hrk]
      exact (mapHas_iff_mem _ _).mp hcase
    · have hcase' : mapHas es3.assignment r.room = false := by
        revert hcase
        cases mapHas es3.assignment r.room <;> simp
      have hr4 : r ∈ rooms.filter (fun room => !(mapHas es3.assignment room.room)) :=
        List.mem_filter.mpr ⟨hr, by simp [hcase']⟩
      have hr5 : r ∈ sortByAgeThenTime
          (rooms.filter (fun room => !(mapHas es3.assignment room.room))) .oldest :=
        (jsSort_perm _ _).mem_iff.mpr hr4
      rw [hkeys4]
      apply List.mem_append_right
      rw [hfilterall, ← hrk]
      exact List.mem_map_of_mem _ hr5
  -- assemble the run
  refine ⟨es4.assignment, ?_, ?_, hinv4.2.1, hinv4.2.2.2⟩
  · show assignRoomsToState rooms (buildInitialState caps) caps = .ok es4.assignment
    have h1eq' : assignRoundRobin (rooms.filter (fun room => room.discharge)) .oldest
        ⟨buildInitialState caps, [], 0⟩ = .ok es1 := h1eq
    have h2eq' : assignRoundRobin (rooms.filter (fun room => room.under_24)) .oldest es1
        = .ok es2 := h2eq
    have h3eq' : assignRoundRobin (rooms.filter (fun room => room.over_24)) .oldest es2
        = .ok es3 := h3eq
    have h4eq' : assignSequence caps (caps.map (fun cap => (cap.nurseId, cap.capacity)))
        (rooms.filter (fun room => !(mapHas es3.assignment room.room))) .oldest es3
        = .ok es4 := h4eq
    simp only [assignRoomsToState, h1eq', h2eq', h3eq', h4eq']
  · exact (List.Nodup.subperm hinv4.2.1 hkeys4sub).antisymm (List.Nodup.subperm hnd hcover)

/-! ### The full engine run -/

theorem deriveRoom_room (r : AssignmentInputRow) : (deriveRoom r).room = r.room := rfl

theorem derived_ids (rows : List AssignmentInputRow) :
    (rows.map deriveRoom).map (·.room) = rows.map (·.room) := by
  rw [List.map_map]
  rfl

theorem assignRooms_spec (rows : List AssignmentInputRow) (nNurses : Nat) (tz : String)
    (fmtClock : DT → String → String)
    (hnd : (rows.map (·.room)).Nodup) (hN : 1 ≤ nNurses) (hne : rows ≠ []) :
    ∃ m res, assignRoomsMap rows nNurses = .ok m ∧
      assignRooms rows nNurses tz fmtClock = .ok res ∧
      (m.map Prod.fst).Perm (rows.map (·.room)) ∧
      (m.map Prod.fst).Nodup ∧
      (∀ p ∈ m, p.2 ∈ (List.range nNurses).map (· + 1)) ∧
      res.perRoom = jsSort perRoomLt ((rows.map deriveRoom).map
        (mkRoomRow m (denseRankOldest (rows.map deriveRoom)) rows.length)) ∧
      res.perNurse = (List.range nNurses).map (mkNurseRow res.perRoom tz fmtClock) := by
  have hdnd : ((rows.map deriveRoom).map (·.room)).Nodup := by
    rw [derived_ids]
    exact hnd
  have hcnd := computeCapacities_ids_nodup rows.length nNurses
  have hcap : capsSum (computeCapacities rows.length nNurses) = (rows.map deriveRoom).length := by
    rw [List.length_map]
    exact capsSum_computeCapacities rows.length nNurses hN
  obtain ⟨m, hmeq, hperm0, hmnd, hvals0⟩ :=
    assignRoomsToState_ok (rows.map deriveRoom) (computeCapacities rows.length nNurses)
      hdnd hcnd hcap
  have hperm : (m.map Prod.fst).Perm (rows.map (·.room)) := by
    rw [← derived_ids]
    exact hperm0
  have hvals : ∀ p ∈ m, p.2 ∈ (List.range nNurses).map (· + 1) := by
    intro p hp
    have := hvals0 p hp
    rw [computeCapacities_ids] at this
    exact this
  have hfilter : (rows.map deriveRoom).filter (fun room => mapHas m room.room)
      = rows.map deriveRoom := by
    rw [List.filter_eq_self]
    intro r hr
    have hr2 : r.room ∈ rows.map (·.room) := by
      rw [← derived_ids]
      exact List.mem_map_of_mem _ hr
    exact (mapHas_iff_mem _ _).mpr (hperm.mem_iff.mpr hr2)
  have hlen0 : ¬ rows.length = 0 := by
    simpa [List.length_eq_zero] using hne
  refine ⟨m,
    ⟨(List.range nNurses).map (mkNurseRow (jsSort perRoomLt
        (((rows.map deriveRoom).filter (fun room => mapHas m room.room)).map
          (mkRoomRow m (denseRankOldest (rows.map deriveRoom)) (rows.map deriveRoom).length)))
        tz fmtClock),
      jsSort perRoomLt
        (((rows.map deriveRoom).filter (fun room => mapHas m room.room)).map
          (mkRoomRow m (denseRankOldest (rows.map deriveRoom)) (rows.map deriveRoom).length))⟩,
    hmeq, ?_, hperm, hmnd, hvals, ?_, ?_⟩
  · have hmeq' : assignRoomsToState (rows.map deriveRoom)
        (buildInitialState (computeCapacities rows.length nNurses))
        (computeCapacities rows.length nNurses) = .ok m := hmeq
    simp only [assignRooms, if_neg hlen0, hmeq']
  · show jsSort perRoomLt _ = jsSort perRoomLt _
    rw [hfilter, List.length_map]
  · rfl

/-! ### Dense-rank lemmas -/

theorem mapGet?_mapreplace_ne (m : List (String × Nat)) (k k' : String) (v : Nat)
    (h : ¬ k' = k) :
    mapGet? (m.map (fun p => if p.1 = k then (k, v) else p)) k' = mapGet? m k' := by
  induction m with
  | nil => rfl
  | cons p rest ih =>
    by_cases hp : p.1 = k
    · rw [List.map_cons, if_pos hp]
      rw [mapGet?_cons_ne (k, v) _ k' (fun hh => h hh.symm)]
      rw [mapGet?_cons_ne p rest k' (by rw [hp]; exact fun hh => h hh.symm)]
      exact ih
    · rw [List.map_cons, if_neg hp]
      by_cases hpk : p.1 = k'
      · simp [mapGet?, List.find?_cons_of_pos, hpk]
      · rw [mapGet?_cons_ne p _ k' hpk, mapGet?_cons_ne p rest k' hpk]
        exact ih

theorem mapGet?_set_ne (m : List (String × Nat)) (k k' : String) (v : Nat)
    (h : ¬ k' = k) : mapGet? (mapSet m k v) k' = mapGet? m k' := by
  unfold mapSet
  split
  · exact mapGet?_mapreplace_ne m k k' v h
  · exact mapGet?_append_ne m k k' v h

theorem mapHas_append_single (m : List (String × Nat)) (k k' : String) (v : Nat) :
    mapHas (m ++ [(k, v)]) k' = (mapHas m k' || decide (k = k')) := by
  simp [mapHas, List.any_append]

theorem rankWalk_preserve (k : String) :
    ∀ (xs : List DerivedRoom) (last : Option Int) (cur : Nat) (acc : List (String × Nat)),
      k ∉ xs.map (·.room) →
      mapGet? (rankWalk last cur acc xs) k = mapGet? acc k := by
  intro xs
  induction xs with
  | nil =>
    intro last cur acc _
    rfl
  | cons y ys ih =>
    intro last cur acc hk
    have hky : ¬ k = y.room := by
      intro h
      exact hk (by rw [List.map_cons]; exact List.mem_cons.mpr (Or.inl h))
    have hkys : k ∉ ys.map (·.room) := by
      intro h
      exact hk (by rw [List.map_cons]; exact List.mem_cons.mpr (Or.inr h))
    rcases last with _ | lm
    · rw [show rankWalk none cur acc (y :: ys)
          = rankWalk (some y.timeParsed.millis) (cur + 1)
              (mapSet acc y.room (cur + 1)) ys from rfl]
      rw [ih _ _ _ hkys, mapGet?_set_ne _ _ _ _ hky]
    · by_cases hm : y.timeParsed.millis ≠ lm
      · rw [show rankWalk (some lm) cur acc (y :: ys)
            = if y.timeParsed.millis ≠ lm then
                rankWalk (some y.timeParsed.millis) (cur + 1)
                  (mapSet acc y.room (cur + 1)) ys
              else rankWalk (some lm) cur (mapSet acc y.room cur) ys from rfl]
        rw [if_pos hm, ih _ _ _ hkys, mapGet?_set_ne _ _ _ _ hky]
      · rw [show rankWalk (some lm) cur acc (y :: ys)
            = if y.timeParsed.millis ≠ lm then
                rankWalk (some y.timeParsed.millis) (cur + 1)
                  (mapSet acc y.room (cur + 1)) ys
              else rankWalk (some lm) cur (mapSet acc y.room cur) ys from rfl]
        rw [if_neg hm, ih _ _ _ hkys, mapGet?_set_ne _ _ _ _ hky]

theorem rcount_insert_self (s : Finset Int) (my : Int) (last : Option Int)
    (hS : ∀ v ∈ s, my ≤ v) (hlast : ∀ m0 ∈ last, m0 < my) :
    rcount last (insert my s) my = 1 := by
  unfold rcount
  have hset : (insert my s).filter (fun v => v ≤ my ∧ some v ≠ last) = {my} := by
    ext v
    simp only [Finset.mem_filter, Finset.mem_insert, Finset.mem_singleton]
    constructor
    · rintro ⟨hv | hv, hle, _⟩
      · exact hv
      · exact le_antisymm hle (hS v hv)
    · rintro rfl
      refine ⟨Or.inl rfl, le_refl _, ?_⟩
      rcases last with _ | m0
      · simp
      · have := hlast m0 rfl
        simp only [ne_eq, Option.some_inj]
        omega
  rw [hset, Finset.card_singleton]

theorem rcount_insert_lt (s : Finset Int) (my xm : Int) (last : Option Int)
    (hS : ∀ v ∈ s, my ≤ v) (hxm : my ≤ xm) (hlast : ∀ m0 ∈ last, m0 < my) :
    rcount last (insert my s) xm = 1 + rcount (some my) s xm := by
  unfold rcount
  have hset : (insert my s).filter (fun v => v ≤ xm ∧ some v ≠ last)
      = insert my (s.filter (fun v => v ≤ xm ∧ some v ≠ some my)) := by
    ext v
    simp only [Finset.mem_filter, Finset.mem_insert]
    constructor
    · rintro ⟨hv | hv, hle, hne⟩
      · exact Or.inl hv
      · by_cases hvm : v = my
        · exact Or.inl hvm
        · refine Or.inr ⟨hv, hle, ?_⟩
          simpa using hvm
    · rintro (rfl | ⟨hv, hle, hne⟩)
      · refine ⟨Or.inl rfl, hxm, ?_⟩
        rcases last with _ | m0
        · simp
        · have := hlast m0 rfl
          simp only [ne_eq, Option.some_inj]
          omega
      · refine ⟨Or.inr hv, hle, ?_⟩
        rcases last with _ | m0
        · simp
        · have h1 := hlast m0 rfl
          have h2 := hS v hv
          simp only [ne_eq, Option.some_inj]
          omega
  have hmynot : my ∉ s.filter (fun v => v ≤ xm ∧ some v ≠ some my) := by simp
  rw [hset, Finset.card_insert_of_not_mem hmynot, Nat.add_comm]

theorem rcount_insert_dup (s : Finset Int) (my xm : Int) :
    rcount (some my) (insert my s) xm = rcount (some my) s xm := by
  unfold rcount
  rw [Finset.filter_insert, if_neg (by simp)]

theorem rcount_self_dup (s : Finset Int) (my : Int) (hS : ∀ v ∈ s, my ≤ v) :
    rcount (some my) (insert my s) my = 0 := by
  unfold rcount
  convert Finset.card_empty
  ext v
  simp only [Finset.mem_filter, Finset.mem_insert, Finset.not_mem_empty, iff_false, not_and]
  rintro (hv | hv)
  · intro _
    simp [hv]
  · intro hle
    have : v = my := le_antisymm hle (hS v hv)
    simp [this]

theorem millisFinset_cons (y : DerivedRoom) (ys : List DerivedRoom) :
    millisFinset (y :: ys) = insert (millisOf y) (millisFinset ys) := by
  simp [millisFinset, List.toFinset_cons]

theorem mem_millisFinset (r : DerivedRoom) (rooms : List DerivedRoom) (hr : r ∈ rooms) :
    millisOf r ∈ millisFinset rooms :=
  List.mem_toFinset.mpr (List.mem_map_of_mem _ hr)

theorem rankWalk_lookup :
    ∀ (xs : List DerivedRoom) (last : Option Int) (cur : Nat) (acc : List (String × Nat)),
      List.Pairwise (fun a b => millisOf a ≤ millisOf b) xs →
      (∀ m0 ∈ last, ∀ x ∈ xs, m0 ≤ millisOf x) →
      (xs.map (·.room)).Nodup →
      (∀ x ∈ xs, mapHas acc x.room = false) →
      ∀ x ∈ xs, mapGet? (rankWalk last cur acc xs) x.room
        = some (cur + rcount last (millisFinset xs) (millisOf x)) := by
  intro xs
  induction xs with
  | nil =>
    intro _ _ _ _ _ _ _ x hx
    simp at hx
  | cons y ys ih =>
    intro last cur acc hsort hlast hnd hfresh x hx
    have hyys : ∀ z ∈ ys, millisOf y ≤ millisOf z :=
      fun z hz => (List.pairwise_cons.mp hsort).1 z hz
    have hsort' := (List.pairwise_cons.mp hsort).2
    have hndy : y.room ∉ ys.map (·.room) := (List.nodup_cons.mp hnd).1
    have hnd' := (List.nodup_cons.mp hnd).2
    have hfreshy := hfresh y (List.mem_cons_self _ _)
    have hySmem : ∀ v ∈ millisFinset ys, millisOf y ≤ v := by
      intro v hv
      obtain ⟨z, hz, hzv⟩ := List.mem_map.mp (List.mem_toFinset.mp hv)
      rw [← hzv]
      exact hyys z hz
    have hfresh' : ∀ (r : Nat), ∀ z ∈ ys, mapHas (mapSet acc y.room r) z.room = false := by
      intro r z hz
      rw [mapSet_fresh _ _ _ hfreshy, mapHas_append_single]
      have h1 : mapHas acc z.room = false := hfresh z (List.mem_cons_of_mem _ hz)
      have h2 : ¬ y.room = z.room := by
        intro h
        exact hndy (by rw [h]; exact List.mem_map_of_mem _ hz)
      simp [h1, h2]
    have hget : ∀ (r : Nat), mapGet? (mapSet acc y.room r) y.room = some r := by
      intro r
      rw [mapSet_fresh _ _ _ hfreshy]
      exact mapGet?_append_self acc y.room r hfreshy
    rcases List.mem_cons.mp hx with rfl | hxys
    · -- x is the head: its rank is the value set at this step
      rcases last with _ | lm
      · rw [show rankWalk none cur acc (x :: ys)
            = rankWalk (some (millisOf x)) (cur + 1) (mapSet acc x.room (cur + 1)) ys from rfl]
        rw [rankWalk_preserve x.room ys _ _ _ hndy, hget]
        rw [millisFinset_cons,
          rcount_insert_self (millisFinset ys) (millisOf x) none hySmem
            (by intro m0 hm0; simp at hm0)]
      · by_cases hm : millisOf x ≠ lm
        · rw [show rankWalk (some lm) cur acc (x :: ys)
              = if millisOf x ≠ lm then
                  rankWalk (some (millisOf x)) (cur + 1) (mapSet acc x.room (cur + 1)) ys
                else rankWalk (some lm) cur (mapSet acc x.room cur) ys from rfl]
          rw [if_pos hm, rankWalk_preserve x.room ys _ _ _ hndy, hget]
          have hlmy : lm < millisOf x := by
            have h1 : lm ≤ millisOf x := hlast lm rfl x (List.mem_cons_self _ _)
            omega
          rw [millisFinset_cons,
            rcount_insert_self (millisFinset ys) (millisOf x) (some lm) hySmem
              (by
                intro m0 hm0
                have hmm : lm = m0 := by simpa using hm0
                rw [← hmm]
                exact hlmy)]
        · have heq : millisOf x = lm := not_not.mp hm
          rw [show rankWalk (some lm) cur acc (x :: ys)
              = if millisOf x ≠ lm then
                  rankWalk (some (millisOf x)) (cur + 1) (mapSet acc x.room (cur + 1)) ys
                else rankWalk (some lm) cur (mapSet acc x.room cur) ys from rfl]
          rw [if_neg hm, rankWalk_preserve x.room ys _ _ _ hndy, hget]
          rw [millisFinset_cons, ← heq, rcount_self_dup (millisFinset ys) (millisOf x) hySmem]
          simp
    · -- x is in the tail: use the induction hypothesis
      rcases last with _ | lm
      · rw [show rankWalk none cur acc (y :: ys)
            = rankWalk (some (millisOf y)) (cur + 1) (mapSet acc y.room (cur + 1)) ys from rfl]
        rw [ih (some (millisOf y)) (cur + 1) _ hsort'
          (by intro m0 hm0 z hz
              have hmm : millisOf y = m0 := by simpa using hm0
              rw [← hmm]
              exact hyys z hz)
          hnd' (hfresh' _) x hxys]
        rw [millisFinset_cons,
          rcount_insert_lt (millisFinset ys) (millisOf y) (millisOf x) none hySmem
            (hyys x hxys) (by intro m0 hm0; simp at hm0)]
        congr 1
        omega
      · by_cases hm : millisOf y ≠ lm
        · rw [show rankWalk (some lm) cur acc (y :: ys)
              = if millisOf y ≠ lm then
                  rankWalk (some (millisOf y)) (cur + 1) (mapSet acc y.room (cur + 1)) ys
                else rankWalk (some lm) cur (mapSet acc y.room cur) ys from rfl]
          rw [if_pos hm]
          rw [ih (some (millisOf y)) (cur + 1) _ hsort'
            (by intro m0 hm0 z hz
                have hmm : millisOf y = m0 := by simpa using hm0
                rw [← hmm]
                exact hyys z hz)
            hnd' (hfresh' _) x hxys]
          have hlmy : lm < millisOf y := by
            have h1 : lm ≤ millisOf y := hlast lm rfl y (List.mem_cons_self _ _)
            omega
          rw [millisFinset_cons,
            rcount_insert_lt (millisFinset ys) (millisOf y) (millisOf x) (some lm) hySmem
              (hyys x hxys)
              (by
                intro m0 hm0
                have hmm : lm = m0 := by simpa using hm0
                rw [← hmm]
                exact hlmy)]
          congr 1
          omega
        · have heq : millisOf y = lm := not_not.mp hm
          rw [show rankWalk (some lm) cur acc (y :: ys)
              = if millisOf y ≠ lm then
                  rankWalk (some (millisOf y)) (cur + 1) (mapSet acc y.room (cur + 1)) ys
                else rankWalk (some lm) cur (mapSet acc y.room cur) ys from rfl]
          rw [if_neg hm]
          rw [ih (some lm) cur _ hsort'
            (by intro m0 hm0 z hz
                have hmm : lm = m0 := by simpa using hm0
                rw [← hmm, ← heq]
                exact hyys z hz)
            hnd' (hfresh' _) x hxys]
          rw [millisFinset_cons, ← heq, rcount_insert_dup]

theorem jsSort_rankLt_pairwise (l : List DerivedRoom) :
    List.Pairwise (fun a b => millisOf a ≤ millisOf b) (jsSort rankLt l) := by
  apply jsSort_pairwise
  · intro a b c hab hbc
    exact le_trans hab hbc
  · intro a b h
    simp only [rankLt, decide_eq_true_eq] at h
    rcases h with h1 | ⟨h1, _⟩
    · exact le_of_lt h1
    · exact le_of_eq h1
  · intro a b h
    simp only [rankLt, decide_eq_false_iff_not] at h
    push_neg at h
    exact h.1

theorem rcount_none (s : Finset Int) (m : Int) :
    rcount none s m = (s.filter (fun v => v ≤ m)).card := by
  unfold rcount
  congr 1
  ext v
  simp

theorem card_le_split (s : Finset Int) (m : Int) (hm : m ∈ s) :
    (s.filter (fun v => v ≤ m)).card = 1 + (s.filter (fun v => v < m)).card := by
  have hset : s.filter (fun v => v ≤ m) = insert m (s.filter (fun v => v < m)) := by
    ext v
    simp only [Finset.mem_filter, Finset.mem_insert]
    constructor
    · rintro ⟨hv, hle⟩
      rcases lt_or_eq_of_le hle with hlt | hvm
      · exact Or.inr ⟨hv, hlt⟩
      · exact Or.inl hvm
    · rintro (rfl | ⟨hv, hlt⟩)
      · exact ⟨hm, le_refl _⟩
      · exact ⟨hv, le_of_lt hlt⟩
  rw [hset, Finset.card_insert_of_not_mem (by simp), Nat.add_comm]

theorem millisFinset_perm {l1 l2 : List DerivedRoom} (h : l1.Perm l2) :
    millisFinset l1 = millisFinset l2 := by
  unfold millisFinset
  ext v
  simp only [List.mem_toFinset]
  exact (h.map millisOf).mem_iff

theorem denseRank_lookup (rooms : List DerivedRoom)
    (hnd : (rooms.map (·.room)).Nodup) :
    ∀ r ∈ rooms, mapGet? (denseRankOldest rooms) r.room
      = some (1 + distinctLtCount rooms (millisOf r)) := by
  intro r hr
  have hperm : (jsSort rankLt rooms).Perm rooms := jsSort_perm _ _
  have hsnd : ((jsSort rankLt rooms).map (·.room)).Nodup :=
    ((hperm.map (·.room)).symm).nodup hnd
  have hrs : r ∈ jsSort rankLt rooms := hperm.mem_iff.mpr hr
  have hmain := rankWalk_lookup (jsSort rankLt rooms) none 0 []
    (jsSort_rankLt_pairwise rooms) (by intro m0 hm0; simp at hm0)
    hsnd (by intro x _; rfl) r hrs
  rw [show denseRankOldest rooms = rankWalk none 0 [] (jsSort rankLt rooms) from rfl]
  rw [hmain, millisFinset_perm hperm]
  have hmem : millisOf r ∈ millisFinset rooms := mem_millisFinset r rooms hr
  rw [rcount_none, card_le_split (millisFinset rooms) (millisOf r) hmem]
  simp [distinctLtCount]

theorem distinctLtCount_lt (rooms : List DerivedRoom) (m1 m2 : Int)
    (h1 : m1 ∈ millisFinset rooms) (hlt : m1 < m2) :
    distinctLtCount rooms m1 < distinctLtCount rooms m2 := by
  unfold distinctLtCount
  apply Finset.card_lt_card
  constructor
  · intro v hv
    have hv' := Finset.mem_filter.mp hv
    exact Finset.mem_filter.mpr ⟨hv'.1, lt_trans hv'.2 hlt⟩
  · intro hcontra
    have : m1 ∈ (millisFinset rooms).filter (fun v => v < m2) :=
      Finset.mem_filter.mpr ⟨h1, hlt⟩
    have := hcontra this
    simp at this

theorem denseRank_tie_iff (rooms : List DerivedRoom)
    (hnd : (rooms.map (·.room)).Nodup)
    (r1 : DerivedRoom) (hr1 : r1 ∈ rooms) (r2 : DerivedRoom) (hr2 : r2 ∈ rooms) :
    mapGet? (denseRankOldest rooms) r1.room = mapGet? (denseRankOldest rooms) r2.room
      ↔ millisOf r1 = millisOf r2 := by
  rw [denseRank_lookup rooms hnd r1 hr1, denseRank_lookup rooms hnd r2 hr2]
  constructor
  · intro h
    simp only [Option.some_inj] at h
    by_contra hne
    rcases lt_or_gt_of_ne hne with hlt | hgt
    · have := distinctLtCount_lt rooms (millisOf r1) (millisOf r2)
        (mem_millisFinset r1 rooms hr1) hlt
      omega
    · have := distinctLtCount_lt rooms (millisOf r2) (millisOf r1)
        (mem_millisFinset r2 rooms hr2) hgt
      omega
  · intro h
    rw [h]

/-! ### Hash-erasure congruence: the engine never consults randKey -/

theorem cmp_eraseRand (a b : DerivedRoom) (dir : SortDirection) :
    compareByAgeThenTime (eraseRand a) (eraseRand b) dir = compareByAgeThenTime a b dir := rfl

theorem sortByAgeThenTime_eraseRand (l : List DerivedRoom) (dir : SortDirection) :
    sortByAgeThenTime (l.map eraseRand) dir = (sortByAgeThenTime l dir).map eraseRand := by
  unfold sortByAgeThenTime
  exact jsSort_map eraseRand _ _ (fun a b => by rw [cmp_eraseRand]) l

theorem applyAssign_eraseRand (r : DerivedRoom) (n : NurseState) :
    applyAssign (eraseRand r) n = applyAssign r n := rfl

theorem eraseRand_room (r : DerivedRoom) : (eraseRand r).room = r.room := rfl

theorem eraseRand_bfi (r : DerivedRoom) : (eraseRand r).bfi = r.bfi := rfl

theorem eraseRand_cs (r : DerivedRoom) : (eraseRand r).cs = r.cs := rfl

theorem updateNurseState_eraseRand (nid : Nat) (r : DerivedRoom) (ns : List NurseState) :
    updateNurseState nid (eraseRand r) ns = updateNurseState nid r ns := by
  induction ns with
  | nil => rfl
  | cons n rest ih => simp only [updateNurseState, applyAssign_eraseRand, ih]

theorem rrStep_eraseRand (r : DerivedRoom) (es : EngineState) :
    rrStep (eraseRand r) es = rrStep r es := by
  rcases hc : (getRoundRobinOrder es).filter (fun n => decide (0 < n.remaining)) with _ | ⟨c, cs⟩
  · simp only [rrStep, hc]
  · simp only [rrStep, hc, updateNurseState_eraseRand, eraseRand_room, eraseRand_bfi,
      eraseRand_cs]

theorem pickNurse_eraseRand (r : DerivedRoom) (ns : List NurseState)
    (caps : List NurseCapacity) (cm : List (Nat × Nat)) :
    pickNurse (eraseRand r) ns caps cm = pickNurse r ns caps cm := rfl

theorem scoreStep_eraseRand (caps : List NurseCapacity) (cm : List (Nat × Nat))
    (r : DerivedRoom) (es : EngineState) :
    scoreStep caps cm (eraseRand r) es = scoreStep caps cm r es := by
  unfold scoreStep
  rw [show (eraseRand r).room = r.room from rfl, pickNurse_eraseRand]
  cases pickNurse r es.nurses caps cm with
  | error e => rfl
  | ok chosen => simp only [updateNurseState_eraseRand]

theorem runPhase_map_congr (step : DerivedRoom → EngineState → Except String EngineState)
    (f : DerivedRoom → DerivedRoom) (hstep : ∀ r es, step (f r) es = step r es) :
    ∀ (l : List DerivedRoom) (es : EngineState),
      runPhase step (l.map f) es = runPhase step l es := by
  intro l
  induction l with
  | nil =>
    intro es
    rfl
  | cons r rs ih =>
    intro es
    cases h : step r es with
    | error e => simp [runPhase, hstep r es, h]
    | ok es' => simp [runPhase, hstep r es, h, ih es']

theorem filter_map_eraseRand (p : DerivedRoom → Bool) (hp : ∀ r, p (eraseRand r) = p r)
    (l : List DerivedRoom) :
    (l.map eraseRand).filter p = (l.filter p).map eraseRand := by
  rw [List.filter_map]
  congr 1
  apply List.filter_congr
  intro r _
  exact hp r

theorem assignRoundRobin_eraseRand (data : List DerivedRoom) (dir : SortDirection)
    (es : EngineState) :
    assignRoundRobin (data.map eraseRand) dir es = assignRoundRobin data dir es := by
  unfold assignRoundRobin
  rw [sortByAgeThenTime_eraseRand,
    filter_map_eraseRand (fun room => !(mapHas es.assignment room.room)) (fun r => rfl)
      (sortByAgeThenTime data dir)]
  exact runPhase_map_congr rrStep eraseRand rrStep_eraseRand _ es

theorem assignSequence_eraseRand (caps : List NurseCapacity) (cm : List (Nat × Nat))
    (data : List DerivedRoom) (dir : SortDirection) (es : EngineState) :
    assignSequence caps cm (data.map eraseRand) dir es = assignSequence caps cm data dir es := by
  unfold assignSequence
  rw [sortByAgeThenTime_eraseRand,
    filter_map_eraseRand (fun room => !(mapHas es.assignment room.room)) (fun r => rfl)
      (sortByAgeThenTime data dir)]
  exact runPhase_map_congr _ eraseRand (fun r es => scoreStep_eraseRand caps cm r es) _ es

theorem assignRoomsToState_eraseRand (rooms : List DerivedRoom) (st : List NurseState)
    (caps : List NurseCapacity) :
    assignRoomsToState (rooms.map eraseRand) st caps = assignRoomsToState rooms st caps := by
  have hphase4 : ∀ es3 : EngineState,
      assignSequence caps (caps.map (fun cap => (cap.nurseId, cap.capacity)))
        ((rooms.map eraseRand).filter (fun room => !(mapHas es3.assignment room.room)))
        .oldest es3
      = assignSequence caps (caps.map (fun cap => (cap.nurseId, cap.capacity)))
        (rooms.filter (fun room => !(mapHas es3.assignment room.room))) .oldest es3 := by
    intro es3
    rw [filter_map_eraseRand (fun room => !(mapHas es3.assignment room.room)) (fun r => rfl)
      rooms, assignSequence_eraseRand]
  simp only [assignRoomsToState,
    filter_map_eraseRand (fun room => room.discharge) (fun r => rfl),
    filter_map_eraseRand (fun room => room.under_24) (fun r => rfl),
    filter_map_eraseRand (fun room => room.over_24) (fun r => rfl),
    assignRoundRobin_eraseRand, hphase4]

theorem deriveRoomNoHash_eq (row : AssignmentInputRow) :
    deriveRoomNoHash row = eraseRand (deriveRoom row) := rfl

theorem assignRoomsMapNoHash_eq (rows : List AssignmentInputRow) (nNurses : Nat) :
    assignRoomsMapNoHash rows nNurses = assignRoomsMap rows nNurses := by
  unfold assignRoomsMapNoHash assignRoomsMap
  rw [show rows.map deriveRoomNoHash = (rows.map deriveRoom).map eraseRand from by
    rw [List.map_map]
    apply List.map_congr_left
    intro r _
    rfl]
  exact assignRoomsToState_eraseRand _ _ _

/-! ### Projection lemmas and timezone invariance -/

theorem mkRoomRow_room (am ro : List (String × Nat)) (total : Nat) (r : DerivedRoom) :
    (mkRoomRow am ro total r).room = r.room := rfl

theorem mkRoomRow_nurse_id (am ro : List (String × Nat)) (total : Nat) (r : DerivedRoom) :
    (mkRoomRow am ro total r).nurse_id = (mapGet? am r.room).getD 0 := rfl

theorem mkRoomRow_rank_oldest (am ro : List (String × Nat)) (total : Nat) (r : DerivedRoom) :
    (mkRoomRow am ro total r).rank_oldest = (mapGet? ro r.room).getD 1 := rfl

theorem mkRoomRow_rank_youngest (am ro : List (String × Nat)) (total : Nat) (r : DerivedRoom) :
    (mkRoomRow am ro total r).rank_youngest
      = (total : Int) - (((mapGet? ro r.room).getD 1 : Nat) : Int) + 1 := rfl

theorem mkNurseRow_nurse_id (pr : List RoomAssignmentRow) (tz : String)
    (f : DT → String → String) (idx : Nat) :
    (mkNurseRow pr tz f idx).nurse_id = idx + 1 := rfl

theorem mkNurseRow_n_rooms (pr : List RoomAssignmentRow) (tz : String)
    (f : DT → String → String) (idx : Nat) :
    (mkNurseRow pr tz f idx).n_rooms
      = (pr.filter (fun room => room.nurse_id = idx + 1)).length := rfl

theorem mkNurseRow_ranks_none (pr : List RoomAssignmentRow) (tz : String)
    (f : DT → String → String) (idx : Nat)
    (h : (mkNurseRow pr tz f idx).n_rooms = 0) :
    (mkNurseRow pr tz f idx).oldest_rank_received = none ∧
    (mkNurseRow pr tz f idx).youngest_rank_received = none := by
  have h' : (pr.filter (fun room => room.nurse_id = idx + 1)).length = 0 := h
  constructor <;> simp [mkNurseRow, h']

theorem mkNurseRow_core (perRoom : List RoomAssignmentRow) (tz1 tz2 : String)
    (f : DT → String → String) (idx : Nat) :
    nurseRowCore (mkNurseRow perRoom tz1 f idx)
      = nurseRowCore (mkNurseRow perRoom tz2 f idx) := rfl

theorem assignRooms_tz_invariant (rows : List AssignmentInputRow) (nNurses : Nat)
    (tz1 tz2 : String) (fmtClock : DT → String → String) :
    (assignRooms rows nNurses tz1 fmtClock).map resultCore
      = (assignRooms rows nNurses tz2 fmtClock).map resultCore := by
  by_cases h0 : rows.length = 0
  · simp only [assignRooms, if_pos h0]
  · simp only [assignRooms, if_neg h0]
    cases assignRoomsToState (rows.map deriveRoom)
        (buildInitialState (computeCapacities rows.length nNurses))
        (computeCapacities rows.length nNurses) with
    | error e => rfl
    | ok m =>
      simp only [Except.map]
      congr 1
      unfold resultCore
      congr 1
      rw [List.map_map, List.map_map]
      apply List.map_congr_left
      intro idx _
      exact mkNurseRow_core _ tz1 tz2 fmtClock idx

/-! ### Per-step state preservation (without the full engine invariant) -/

theorem rrStep_preserves (caps : List NurseCapacity) (room : DerivedRoom)
    (es es' : EngineState) (hcnd : (caps.map (·.nurseId)).Nodup)
    (hok : NursesOK es.nurses caps) (h : rrStep room es = .ok es') :
    NursesOK es'.nurses caps := by
  have hidnd : (es.nurses.map (·.nurseId)).Nodup := by
    rw [nursesOK_ids hok]
    exact hcnd
  rcases hc : (getRoundRobinOrder es).filter (fun n => decide (0 < n.remaining)) with _ | ⟨c, cs⟩
  · simp only [rrStep, hc] at h
    exact Except.noConfusion h
  · simp only [rrStep, hc, Except.ok.injEq] at h
    have hch : (((c :: cs).filter
        (fun n => !(room.bfi && n.hasBfi) && !(room.cs && n.hasCs))).headD c) ∈ c :: cs :=
      headD_filter_mem _ c (c :: cs) (List.mem_cons_self _ _)
    have hch2 : (((c :: cs).filter
        (fun n => !(room.bfi && n.hasBfi) && !(room.cs && n.hasCs))).headD c)
        ∈ (getRoundRobinOrder es).filter (fun n => decide (0 < n.remaining)) := by
      rw [hc]
      exact hch
    have hchf := List.mem_filter.mp hch2
    have hchmem := (getRoundRobinOrder_perm es).mem_iff.mp hchf.1
    have hchpos : 0 < ((((c :: cs).filter
        (fun n => !(room.bfi && n.hasBfi) && !(room.cs && n.hasCs))).headD c)).remaining := by
      simpa using hchf.2
    obtain ⟨hupd, _⟩ := nursesOK_update room es.nurses caps hok hidnd _ hchmem hchpos
    rw [← h]
    exact hupd

theorem pickNurse_ok_inv (room : DerivedRoom) (ns : List NurseState)
    (caps : List NurseCapacity) (cm : List (Nat × Nat)) (nid : Nat)
    (h : pickNurse room ns caps cm = .ok nid) :
    ∃ n0 ∈ ns, 0 < n0.remaining ∧ n0.nurseId = nid := by
  rcases hc : ns.filter (fun n => decide (0 < n.remaining)) with _ | ⟨c, cs⟩
  · simp only [pickNurse, hc] at h
    exact Except.noConfusion h
  · simp only [pickNurse, hc, Except.ok.injEq] at h
    obtain ⟨cand, hcandmem, hhead⟩ :=
      headD_jsSort_map_mem scoredLt
        (scoreNurse room cm ((caps.map (fun cap => (cap.capacity : ℚ))).sum)
          ((ns.map (·.nAssigned)).sum)
          (((ns.map (·.loadSum)).sum + room.wEffective) / (ns.length : ℚ)) ns.length) c cs
    have hcand2 : cand ∈ ns.filter (fun n => decide (0 < n.remaining)) := by
      rw [hc]
      exact hcandmem
    have hf := List.mem_filter.mp hcand2
    refine ⟨cand, hf.1, by simpa using hf.2, ?_⟩
    rw [← h, hhead, scoreNurse_nurseId]

theorem scoreStep_preserves (caps : List NurseCapacity) (cm : List (Nat × Nat))
    (room : DerivedRoom) (es es' : EngineState) (hcnd : (caps.map (·.nurseId)).Nodup)
    (hok : NursesOK es.nurses caps) (h : scoreStep caps cm room es = .ok es') :
    NursesOK es'.nurses caps := by
  have hidnd : (es.nurses.map (·.nurseId)).Nodup := by
    rw [nursesOK_ids hok]
    exact hcnd
  unfold scoreStep at h
  by_cases hhas : mapHas es.assignment room.room = true
  · rw [if_pos hhas] at h
    have : es = es' := by
      have := h
      simp only [Except.ok.injEq] at this
      exact this
    rw [← this]
    exact hok
  · rw [if_neg hhas] at h
    rcases hp : pickNurse room es.nurses caps cm with e | chosen
    · rw [hp] at h
      exact Except.noConfusion h
    · rw [hp] at h
      simp only [Except.ok.injEq] at h
      obtain ⟨n0, hn0mem, hn0pos, hn0id⟩ := pickNurse_ok_inv room es.nurses caps cm chosen hp
      obtain ⟨hupd, _⟩ := nursesOK_update room es.nurses caps hok hidnd n0 hn0mem hn0pos
      rw [← h]
      show NursesOK (updateNurseState chosen room es.nurses) caps
      rw [← hn0id]
      exact hupd

/-! ### Claim theorems -/

/-- C2: computeCapacities returns exactly N capacities; with base = floor(R/N)
and remainder = R mod N, nurses with ids 1..remainder receive base+1 and the
rest base; the capacities sum to R, each is floor(R/N) or floor(R/N)+1, and
the max-min spread is at most 1. -/
theorem charge_C2 (R N : Nat) (hN : 1 ≤ N) :
    (computeCapacities R N).length = N ∧
    (computeCapacities R N).map (·.nurseId) = (List.range N).map (· + 1) ∧
    (∀ c ∈ computeCapacities R N,
      c.capacity = if c.nurseId ≤ R % N then R / N + 1 else R / N) ∧
    capsSum (computeCapacities R N) = R ∧
    (∀ c ∈ computeCapacities R N, c.capacity = R / N ∨ c.capacity = R / N + 1) ∧
    (∀ c1 ∈ computeCapacities R N, ∀ c2 ∈ computeCapacities R N,
      c1.capacity ≤ c2.capacity + 1) := by
  have hval : ∀ c ∈ computeCapacities R N,
      c.capacity = if c.nurseId ≤ R % N then R / N + 1 else R / N := by
    intro c hc
    simp only [computeCapacities, List.mem_map, List.mem_range] at hc
    obtain ⟨idx, hidx, rfl⟩ := hc
    by_cases h : idx < R % N
    · simp only [if_pos h]
      rw [if_pos (by omega)]
    · simp only [if_neg h]
      rw [if_neg (by omega)]
  have hcases : ∀ c ∈ computeCapacities R N,
      c.capacity = R / N ∨ c.capacity = R / N + 1 := by
    intro c hc
    rw [hval c hc]
    by_cases h : c.nurseId ≤ R % N
    · rw [if_pos h]
      exact Or.inr rfl
    · rw [if_neg h]
      exact Or.inl rfl
  refine ⟨computeCapacities_length R N, computeCapacities_ids R N, hval,
    capsSum_computeCapacities R N hN, hcases, ?_⟩
  intro c1 h1 c2 h2
  rcases hcases c1 h1 with hc1 | hc1 <;> rcases hcases c2 h2 with hc2 | hc2 <;> omega

/-- C2 witness: at R = 7, N = 3 the capacities are [3, 2, 2] and sum to 7. -/
theorem charge_C2_witness :
    (1 ≤ 3 ∧ capsSum (computeCapacities 7 3) = 7) ∧
    (computeCapacities 7 3).map (·.capacity) = [3, 2, 2] :=
  ⟨⟨by decide, (charge_C2 7 3 (by decide)).2.2.2.1⟩, by decide⟩

/-- C5: the engine computes the hash key exactly by the per-character formula
of the spec, the discharge phase orders by age-then-time via the shared
comparator, and the room-to-nurse map is unchanged when the hash-key
computation is removed from enrichment. -/
theorem charge_C5 :
    (∀ (room : String) (t : DT), stablePseudoRandomKey room t = hashKeySpec room t) ∧
    (∀ (data : List DerivedRoom) (es : EngineState),
      assignRoundRobin data .oldest es = runPhase rrStep
        ((sortByAgeThenTime data .oldest).filter
          (fun room => !(mapHas es.assignment room.room))) es) ∧
    (∀ (rows : List AssignmentInputRow) (nNurses : Nat),
      assignRoomsMapNoHash rows nNurses = assignRoomsMap rows nNurses) :=
  ⟨stablePseudoRandomKey_eq_spec, fun _ _ => rfl, assignRoomsMapNoHash_eq⟩

/-- C9: for fixed rows and nurse count, any two timezone strings produce the
same per-room table and the same per-nurse rows up to the formatted label
(the timezone influences only the human-readable label text). -/
theorem charge_C9 (rows : List AssignmentInputRow) (nNurses : Nat)
    (tz1 tz2 : String) (fmtClock : DT → String → String) :
    (assignRooms rows nNurses tz1 fmtClock).map resultCore
      = (assignRooms rows nNurses tz2 fmtClock).map resultCore :=
  assignRooms_tz_invariant rows nNurses tz1 tz2 fmtClock

/-- C7: six discharge-tagged rooms 1,3,5,7,9,11 at ascending times plus two
untagged rooms with 3 nurses: every nurse receives exactly 2 of the 6
discharge rooms. -/
theorem charge_C7 :
    (rowsC7.filter (·.discharge)).length = 6 ∧
    (assignRooms rowsC7 3 "UTC" fmt0).toOption.map
      (fun res => res.perNurse.map (·.n_discharge)) = some [2, 2, 2] := by
  constructor
  · decide
  · with_unfolding_all rfl

/-- C3, counterexample: an input with two bfi-tagged rooms and two nurses
(capacities [3, 2]) on which nurse 1 ends the run with both bfi rooms, so
the general soft-duplicate-avoidance guarantee fails even though the number
of bfi rooms does not exceed the nurse count. -/
theorem charge_C3_cex :
    (rowsCX.filter (·.bfi)).length ≤ 2 ∧
    (rowsCX.map (·.room)).Nodup ∧
    (assignRooms rowsCX 2 "UTC" fmt0).toOption.map
      (fun res => res.perNurse.map (·.n_bfi)) = some [2, 0] := by
  refine ⟨by decide, by decide, ?_⟩
  with_unfolding_all rfl

/-- C3, amended: in the spec's concrete scenario (three over_24+bfi rooms and
three over_24+cs rooms, 3 nurses) every nurse ends with at most one bfi room
and at most one cs room; the general claim for arbitrary inputs with at most
N tagged rooms fails under capacity pressure. -/
theorem charge_C3 :
    (assignRooms rowsC3 3 "UTC" fmt0).toOption.map
      (fun res => res.perNurse.map (fun row => (row.n_bfi, row.n_cs)))
      = some [(1, 1), (1, 1), (1, 1)] := by
  with_unfolding_all rfl

/-- C4, counterexample: for the empty room list the engine short-circuits and
returns an empty per-nurse table, not one row per nurse (here N = 1 but the
table has 0 rows). -/
theorem charge_C4_cex :
    assignRooms [] 1 "UTC" fmt0 = .ok ⟨[], []⟩ ∧
    (assignRooms [] 1 "UTC" fmt0).toOption.map (fun res => res.perNurse.length) = some 0 ∧
    (0 : Nat) ≠ 1 :=
  ⟨rfl, rfl, by decide⟩

/-- C1: for every input list with pairwise-distinct room ids and nurse count
N ≥ 1, assignRooms succeeds, every input room id appears exactly once in the
per-room table, and the total assigned room count across all nurses equals
the input room count. -/
theorem charge_C1 (rows : List AssignmentInputRow) (nNurses : Nat) (tz : String)
    (fmtClock : DT → String → String)
    (hnd : (rows.map (·.room)).Nodup) (hN : 1 ≤ nNurses) :
    ∃ res, assignRooms rows nNurses tz fmtClock = .ok res ∧
      (res.perRoom.map (·.room)).Perm (rows.map (·.room)) ∧
      (res.perRoom.map (·.room)).Nodup ∧
      (res.perNurse.map (·.n_rooms)).sum = rows.length := by
  by_cases hne : rows = []
  · subst hne
    exact ⟨⟨[], []⟩, rfl, List.Perm.nil, List.Pairwise.nil, rfl⟩
  · obtain ⟨m, res, hm, hres, hperm, hmnd, hvals, hpr, hpn⟩ :=
      assignRooms_spec rows nNurses tz fmtClock hnd hN hne
    have hmapchain : (((rows.map deriveRoom).map
        (mkRoomRow m (denseRankOldest (rows.map deriveRoom)) rows.length)).map (·.room))
        = rows.map (·.room) := by
      rw [List.map_map, List.map_map]
      apply List.map_congr_left
      intro r _
      rfl
    have hpids : (res.perRoom.map (·.room)).Perm (rows.map (·.room)) := by
      rw [hpr]
      have hp := (jsSort_perm perRoomLt ((rows.map deriveRoom).map
        (mkRoomRow m (denseRankOldest (rows.map deriveRoom)) rows.length))).map (·.room)
      rw [hmapchain] at hp
      exact hp
    have hlen : res.perRoom.length = rows.length := by
      have hle := hpids.length_eq
      simpa using hle
    have hin : ∀ row ∈ res.perRoom, row.nurse_id ∈ (List.range nNurses).map (· + 1) := by
      intro row hrow
      rw [hpr] at hrow
      have hrow2 := (jsSort_perm perRoomLt _).mem_iff.mp hrow
      obtain ⟨r, hr, rfl⟩ := List.mem_map.mp hrow2
      rw [mkRoomRow_nurse_id]
      have hrm : r.room ∈ m.map Prod.fst := by
        apply hperm.mem_iff.mpr
        rw [← derived_ids]
        exact List.mem_map_of_mem _ hr
      obtain ⟨v, hv⟩ := mapGet?_isSome_of_has m r.room ((mapHas_iff_mem _ _).mpr hrm)
      rw [hv]
      exact hvals (r.room, v) (mapGet?_mem _ _ _ hv)
    refine ⟨res, hres, hpids, hpids.symm.nodup hnd, ?_⟩
    rw [hpn, List.map_map]
    have hbucket := length_eq_sum_bucket (fun row => row.nurse_id) res.perRoom
      ((List.range nNurses).map (· + 1))
      (List.Nodup.map (add_left_injective 1) (List.nodup_range nNurses)) hin
    rw [List.map_map] at hbucket
    calc ((List.range nNurses).map
          ((fun r => r.n_rooms) ∘ mkNurseRow res.perRoom tz fmtClock)).sum
        = ((List.range nNurses).map
          ((fun k => (res.perRoom.filter (fun x => x.nurse_id = k)).length) ∘ (· + 1))).sum := by
          apply congrArg
          apply List.map_congr_left
          intro idx _
          rfl
      _ = res.perRoom.length := hbucket
      _ = rows.length := hlen

/-- C1 witness at a concrete two-room, two-nurse input. -/
theorem charge_C1_witness :
    ((rowsW.map (·.room)).Nodup ∧ 1 ≤ 2) ∧
    (∃ res, assignRooms rowsW 2 "UTC" fmt0 = .ok res ∧
      (res.perRoom.map (·.room)).Perm (rowsW.map (·.room)) ∧
      (res.perRoom.map (·.room)).Nodup ∧
      (res.perNurse.map (·.n_rooms)).sum = rowsW.length) :=
  ⟨⟨by decide, by decide⟩, charge_C1 rowsW 2 "UTC" fmt0 (by decide) (by decide)⟩

/-- C4, amended: for every non-empty input with distinct room ids and N ≥ 1
the per-nurse table has exactly N rows with nurse ids 1..N (including nurses
with zero rooms), and a nurse with no rooms has null oldest/youngest rank;
for the empty room list the engine instead returns empty tables. -/
theorem charge_C4 (rows : List AssignmentInputRow) (nNurses : Nat) (tz : String)
    (fmtClock : DT → String → String)
    (hnd : (rows.map (·.room)).Nodup) (hN : 1 ≤ nNurses) (hne : rows ≠ []) :
    ∃ res, assignRooms rows nNurses tz fmtClock = .ok res ∧
      res.perNurse.length = nNurses ∧
      res.perNurse.map (·.nurse_id) = (List.range nNurses).map (· + 1) ∧
      ∀ row ∈ res.perNurse, row.n_rooms = 0 →
        row.oldest_rank_received = none ∧ row.youngest_rank_received = none := by
  obtain ⟨m, res, hm, hres, hperm, hmnd, hvals, hpr, hpn⟩ :=
    assignRooms_spec rows nNurses tz fmtClock hnd hN hne
  refine ⟨res, hres, ?_, ?_, ?_⟩
  · rw [hpn]
    simp
  · rw [hpn, List.map_map]
    apply List.map_congr_left
    intro idx _
    rfl
  · intro row hrow h0
    rw [hpn] at hrow
    obtain ⟨idx, _, rfl⟩ := List.mem_map.mp hrow
    exact mkNurseRow_ranks_none _ tz fmtClock idx h0

/-- C4 witness at a concrete two-room, two-nurse input. -/
theorem charge_C4_witness :
    ((rowsW.map (·.room)).Nodup ∧ 1 ≤ 2 ∧ rowsW ≠ []) ∧
    (∃ res, assignRooms rowsW 2 "UTC" fmt0 = .ok res ∧
      res.perNurse.length = 2 ∧
      res.perNurse.map (·.nurse_id) = (List.range 2).map (· + 1) ∧
      ∀ row ∈ res.perNurse, row.n_rooms = 0 →
        row.oldest_rank_received = none ∧ row.youngest_rank_received = none) :=
  ⟨⟨by decide, by decide, by decide⟩,
    charge_C4 rowsW 2 "UTC" fmt0 (by decide) (by decide) (by decide)⟩

/-- C6: the capacity-exhausted error of a phase step is raised exactly when
no nurse has remaining capacity greater than zero, and under the engine's
own capacity planning (distinct room ids, N ≥ 1) assignRooms never
throws. -/
theorem charge_C6 :
    (∀ (room : DerivedRoom) (es : EngineState),
      (∃ e, rrStep room es = .error e) ↔ ∀ n ∈ es.nurses, ¬ 0 < n.remaining) ∧
    (∀ (room : DerivedRoom) (ns : List NurseState) (caps : List NurseCapacity)
        (cm : List (Nat × Nat)),
      (∃ e, pickNurse room ns caps cm = .error e) ↔ ∀ n ∈ ns, ¬ 0 < n.remaining) ∧
    (∀ (rows : List AssignmentInputRow) (nNurses : Nat) (tz : String)
        (fmtClock : DT → String → String),
      (rows.map (·.room)).Nodup → 1 ≤ nNurses →
      ∃ res, assignRooms rows nNurses tz fmtClock = .ok res) := by
  refine ⟨?_, ?_, ?_⟩
  · intro room es
    constructor
    · rintro ⟨e, he⟩ n hn hpos
      have hcand : n ∈ (getRoundRobinOrder es).filter (fun n => decide (0 < n.remaining)) :=
        List.mem_filter.mpr ⟨(getRoundRobinOrder_perm es).mem_iff.mpr hn, by simpa using hpos⟩
      rcases hc : (getRoundRobinOrder es).filter (fun n => decide (0 < n.remaining))
          with _ | ⟨c, cs⟩
      · rw [hc] at hcand
        simp at hcand
      · simp only [rrStep, hc] at he
        exact Except.noConfusion he
    · intro h
      rcases hc : (getRoundRobinOrder es).filter (fun n => decide (0 < n.remaining))
          with _ | ⟨c, cs⟩
      · exact ⟨"No available nurse capacity for round-robin assignment.",
          by simp only [rrStep, hc]⟩
      · exfalso
        have hcmem : c ∈ (getRoundRobinOrder es).filter
            (fun n => decide (0 < n.remaining)) := by
          rw [hc]
          exact List.mem_cons_self _ _
        have hf := List.mem_filter.mp hcmem
        exact h c ((getRoundRobinOrder_perm es).mem_iff.mp hf.1) (by simpa using hf.2)
  · intro room ns caps cm
    constructor
    · rintro ⟨e, he⟩ n hn hpos
      have hcand : n ∈ ns.filter (fun n => decide (0 < n.remaining)) :=
        List.mem_filter.mpr ⟨hn, by simpa using hpos⟩
      rcases hc : ns.filter (fun n => decide (0 < n.remaining)) with _ | ⟨c, cs⟩
      · rw [hc] at hcand
        simp at hcand
      · simp only [pickNurse, hc] at he
        exact Except.noConfusion he
    · intro h
      rcases hc : ns.filter (fun n => decide (0 < n.remaining)) with _ | ⟨c, cs⟩
      · exact ⟨"No feasible nurse candidates: capacities exhausted",
          by simp only [pickNurse, hc]⟩
      · exfalso
        have hcmem : c ∈ ns.filter (fun n => decide (0 < n.remaining)) := by
          rw [hc]
          exact List.mem_cons_self _ _
        have hf := List.mem_filter.mp hcmem
        exact h c hf.1 (by simpa using hf.2)
  · intro rows nNurses tz fmtClock hnd hN
    by_cases hne : rows = []
    · subst hne
      exact ⟨⟨[], []⟩, rfl⟩
    · obtain ⟨m, res, hm, hres, hperm, hmnd, hvals, hpr, hpn⟩ :=
        assignRooms_spec rows nNurses tz fmtClock hnd hN hne
      exact ⟨res, hres⟩

/-- C6 witness: the no-throw part at a concrete two-room, two-nurse input. -/
theorem charge_C6_witness :
    ((rowsW.map (·.room)).Nodup ∧ 1 ≤ 2) ∧
    (∃ res, assignRooms rowsW 2 "UTC" fmt0 = .ok res) :=
  ⟨⟨by decide, by decide⟩, charge_C6.2.2 rowsW 2 "UTC" fmt0 (by decide) (by decide)⟩

/-- C8: the oldest rank of a room with distinct ids is 1 plus the number of
distinct strictly-earlier timestamps (hence dense, starting at 1, tying
exactly on equal timestamps), and on every per-room output row
rank_oldest + rank_youngest = totalRooms + 1. -/
theorem charge_C8 (rows : List AssignmentInputRow)
    (hnd : (rows.map (·.room)).Nodup) :
    (∀ r ∈ rows.map deriveRoom,
      mapGet? (denseRankOldest (rows.map deriveRoom)) r.room
        = some (1 + distinctLtCount (rows.map deriveRoom) (millisOf r))) ∧
    (∀ r1 ∈ rows.map deriveRoom, ∀ r2 ∈ rows.map deriveRoom,
      (mapGet? (denseRankOldest (rows.map deriveRoom)) r1.room
          = mapGet? (denseRankOldest (rows.map deriveRoom)) r2.room)
        ↔ millisOf r1 = millisOf r2) ∧
    (∀ (nNurses : Nat) (tz : String) (fmtClock : DT → String → String)
        (res : AssignmentResult), assignRooms rows nNurses tz fmtClock = .ok res →
      ∀ row ∈ res.perRoom,
        (row.rank_oldest : Int) + row.rank_youngest = (rows.length : Int) + 1) := by
  have hdnd : ((rows.map deriveRoom).map (·.room)).Nodup := by
    rw [derived_ids]
    exact hnd
  refine ⟨denseRank_lookup _ hdnd,
    fun r1 h1 r2 h2 => denseRank_tie_iff _ hdnd r1 h1 r2 h2, ?_⟩
  intro nNurses tz fmtClock res h row hrow
  by_cases h0 : rows.length = 0
  · simp only [assignRooms, if_pos h0, Except.ok.injEq] at h
    rw [← h] at hrow
    simp at hrow
  · simp only [assignRooms, if_neg h0] at h
    rcases hts : assignRoomsToState (rows.map deriveRoom)
        (buildInitialState (computeCapacities rows.length nNurses))
        (computeCapacities rows.length nNurses) with e | m
    · rw [hts] at h
      exact Except.noConfusion h
    · rw [hts] at h
      simp only [Except.ok.injEq] at h
      rw [← h] at hrow
      have hrow2 : row ∈ ((rows.map deriveRoom).filter
          (fun room => mapHas m room.room)).map
          (mkRoomRow m (denseRankOldest (rows.map deriveRoom))
            (rows.map deriveRoom).length) :=
        (jsSort_perm perRoomLt _).mem_iff.mp hrow
      obtain ⟨r, hr, rfl⟩ := List.mem_map.mp hrow2
      rw [mkRoomRow_rank_oldest, mkRoomRow_rank_youngest, List.length_map]
      omega

/-- C8 witness: the rank-lookup characterization at a concrete input. -/
theorem charge_C8_witness :
    (rowsW.map (·.room)).Nodup ∧
    (∀ r ∈ rowsW.map deriveRoom,
      mapGet? (denseRankOldest (rowsW.map deriveRoom)) r.room
        = some (1 + distinctLtCount (rowsW.map deriveRoom) (millisOf r))) :=
  ⟨by decide, (charge_C8 rowsW (by decide)).1⟩

/-- C10: the initial state satisfies remaining + nAssigned = capacity with
remaining = capacity; a nurse returned by pickNurse has remaining > 0; an
assignment to a nurse with remaining > 0 decrements remaining by exactly one
(the clamp never engages) and increments nAssigned by exactly one; both
phase steps preserve the per-nurse equation; and the equation bounds every
state it holds of: remaining never negative, nAssigned never above the
planned capacity. -/
theorem charge_C10 :
    (∀ caps : List NurseCapacity, NursesOK (buildInitialState caps) caps) ∧
    (∀ (room : DerivedRoom) (ns : List NurseState) (caps : List NurseCapacity)
        (cm : List (Nat × Nat)) (nid : Nat), pickNurse room ns caps cm = .ok nid →
      ∃ n0 ∈ ns, 0 < n0.remaining ∧ n0.nurseId = nid) ∧
    (∀ (room : DerivedRoom) (n : NurseState), 0 < n.remaining →
      (applyAssign room n).remaining = n.remaining - 1 ∧
      (applyAssign room n).nAssigned = n.nAssigned + 1) ∧
    (∀ (caps : List NurseCapacity) (room : DerivedRoom) (es es' : EngineState),
      (caps.map (·.nurseId)).Nodup → NursesOK es.nurses caps →
      rrStep room es = .ok es' → NursesOK es'.nurses caps) ∧
    (∀ (caps : List NurseCapacity) (cm : List (Nat × Nat)) (room : DerivedRoom)
        (es es' : EngineState),
      (caps.map (·.nurseId)).Nodup → NursesOK es.nurses caps →
      scoreStep caps cm room es = .ok es' → NursesOK es'.nurses caps) ∧
    (∀ (ns : List NurseState) (caps : List NurseCapacity), NursesOK ns caps →
      List.Forall₂ (fun n cap => 0 ≤ n.remaining ∧ n.nAssigned ≤ cap.capacity) ns caps) := by
  refine ⟨nursesOK_init, pickNurse_ok_inv, ?_, rrStep_preserves, scoreStep_preserves, ?_⟩
  · intro room n hpos
    constructor
    · simp only [applyAssign]
      omega
    · rfl
  · intro ns caps hok
    refine List.Forall₂.imp ?_ hok
    intro n cap hm
    obtain ⟨hid, hpos, heq⟩ := hm
    refine ⟨hpos, ?_⟩
    omega

/-- C10 witness: one concrete assignment decrements remaining and increments
nAssigned. -/
theorem charge_C10_witness :
    0 < nurseW.remaining ∧
    ((applyAssign roomW nurseW).remaining = nurseW.remaining - 1 ∧
     (applyAssign roomW nurseW).nAssigned = nurseW.nAssigned + 1) :=
  ⟨by decide, charge_C10.2.2.1 roomW nurseW (by decide)⟩
